import Mathlib

/-!
# Verification of the rigal static-gallery builder (`src/main.rs`)

A shallow embedding of the incremental build pipeline of `rigal`:

* paths are lists of components (`Path`);
* the filesystem is an association list from paths to entries carrying a
  modification time and, for regular files, the file bytes (`FS`);
* the image codec (`image` crate) is an opaque collaborator, modelled by a
  `Codec` record of `decode` / `resample` / `encode` functions; decoding may
  fail, which models per-task codec errors;
* the `tera` renderer is opaque: we model the rendering *context* that the
  code hands to it (`Album` / `Context`), not the produced markup.

Each definition is translated from the correspondingly named item of
`src/main.rs`; line references are given in the doc comments.
-/

set_option autoImplicit false

namespace Rigal

/-- A filesystem path, as its list of components (`PathBuf::iter`). -/
abbrev Path := List String

/-- A filesystem entry: a regular file with modification time and content
bytes, or a directory with modification time. -/
inductive Entry where
  | file (mtime : Nat) (bytes : List Nat)
  | dir (mtime : Nat)
deriving DecidableEq

/-- Modification time of an entry (`metadata()?.modified()?`). -/
def Entry.mtime : Entry → Nat
  | .file m _ => m
  | .dir m => m

/-- Whether an entry is a regular file (`Path::is_file`). -/
def Entry.isFile : Entry → Bool
  | .file _ _ => true
  | .dir _ => false

/-- The filesystem: an association list from paths to entries.  An update
conses the new binding in front, shadowing the old one for lookups. -/
abbrev FS := List (Path × Entry)

/-- Lookup of a path in the filesystem (`Path::exists` / `metadata`). -/
def fsGet : FS → Path → Option Entry
  | [], _ => none
  | (q, e) :: rest, p => if q = p then some e else fsGet rest p

/-- Writing an entry at a path (file write, directory creation). -/
def fsSet (fs : FS) (p : Path) (e : Entry) : FS :=
  (p, e) :: fs

@[simp] theorem fsGet_nil (p : Path) : fsGet [] p = none := rfl

@[simp] theorem fsGet_cons (q : Path) (e : Entry) (fs : FS) (p : Path) :
    fsGet ((q, e) :: fs) p = if q = p then some e else fsGet fs p := rfl

theorem fsGet_fsSet_self (fs : FS) (p : Path) (e : Entry) :
    fsGet (fsSet fs p e) p = some e := by
  simp [fsSet]

theorem fsGet_fsSet_ne (fs : FS) (p q : Path) (e : Entry) (h : p ≠ q) :
    fsGet (fsSet fs p e) q = fsGet fs q := by
  simp [fsSet, h]

/-- With no duplicate keys, list membership determines lookup. -/
theorem fsGet_of_mem {fs : FS} {p : Path} {e : Entry}
    (hnd : (fs.map Prod.fst).Nodup) (hm : (p, e) ∈ fs) :
    fsGet fs p = some e := by
  induction fs with
  | nil => cases hm
  | cons hd tl ih =>
    obtain ⟨q, e'⟩ := hd
    simp only [List.map_cons, List.nodup_cons] at hnd
    rcases List.mem_cons.mp hm with h | h
    · cases h
      simp
    · have hne : q ≠ p := by
        intro hqp
        exact hnd.1 (hqp ▸ (List.mem_map.mpr ⟨(p, e), h, rfl⟩))
      simp [hne, ih hnd.2 h]

/-- The last component of a path (`Path::file_name`), `""` if empty. -/
def lastName (p : Path) : String :=
  p.getLast?.getD ""

/-- Whether `root` is a leading segment of `p` (path ancestry; used to model
which paths a `WalkDir` traversal of `root` can yield). -/
def isUnder : Path → Path → Bool
  | [], _ => true
  | _ :: _, [] => false
  | a :: as, b :: bs => a == b && isUnder as bs

@[simp] theorem isUnder_nil_left (p : Path) : isUnder [] p = true := rfl

theorem isUnder_append (root rest : Path) : isUnder root (root ++ rest) = true := by
  induction root with
  | nil => rfl
  | cons a as ih => simp [isUnder, ih]

theorem exists_drop_of_isUnder :
    ∀ (root p : Path), isUnder root p = true → p = root ++ p.drop root.length
  | [], _, _ => by simp
  | _ :: _, [], h => by simp [isUnder] at h
  | a :: as, b :: bs, h => by
    simp only [isUnder, Bool.and_eq_true, beq_iff_eq] at h
    have := exists_drop_of_isUnder as bs h.2
    simp [h.1, List.cons_append]
    exact this

theorem head_eq_of_isUnder :
    ∀ (root p : Path), root ≠ [] → isUnder root p = true → p.head? = root.head?
  | [], _, hne, _ => absurd rfl hne
  | a :: as, [], _, h => by simp [isUnder] at h
  | a :: as, b :: bs, _, h => by
    simp only [isUnder, Bool.and_eq_true, beq_iff_eq] at h
    simp [h.1]

/-! ## Extension filtering

`Builder::new` (src/main.rs:92-95) builds the accepted-extension set: a
`HashSet<OsString>` holding the single element `"jpg"`.  Both
`process_images` (line 175) and `write_template` (line 241) filter with
`e.path().extension().map_or(false, |ext| self.extensions.contains(ext))`.
-/

/-- The hard-coded accepted extension set of `Builder::new`. -/
def extensions : List String := ["jpg"]

/-- The characters after the last `.` of a character list, `none` when it
contains no `.`. -/
def afterLastDot : List Char → Option (List Char)
  | [] => none
  | c :: rest =>
    match afterLastDot rest with
    | some e => some e
    | none => if c = '.' then some rest else none

/-- `Path::extension` of a file name: the portion after the last `.`,
absent when there is no `.` at all or when the name begins with `.` and
has no other `.` (a hidden file).  Both cases coincide with "the first
character contributes no extension": only a dot at position one or later
counts. -/
def extension (name : String) : Option String :=
  match name.data with
  | [] => none
  | _ :: rest =>
    match afterLastDot rest with
    | some e => some (String.mk e)
    | none => none

/-- The extension filter applied by the scanner and the album lister:
`extension().map_or(false, |ext| extensions.contains(ext))`. -/
def fileMatches (name : String) : Bool :=
  match extension name with
  | none => false
  | some e => extensions.contains e

theorem fileMatches_iff (name : String) :
    fileMatches name = true ↔ extension name = some "jpg" := by
  unfold fileMatches
  cases h : extension name with
  | none => simp
  | some e =>
    simp [extensions]

/-! ## Staleness decisions

`Builder::into_conversion` (src/main.rs:110-128) and the per-file branch of
`Builder::copy_static_data` (src/main.rs:217). -/

/-- A `Conversion` work item (src/main.rs:49-53).  The Rust fields are
`from` (a `DirEntry`, here its path) and `to`. -/
structure Conversion where
  src : Path
  dst : Path
deriving DecidableEq

/-- `Builder::into_conversion` (src/main.rs:110-128): strip the entry path's
first component, re-join onto the output root, and emit a task iff the
destination is missing or strictly older than the source.  An empty path has
no first component (`Cannot process current directory`); a vanished source
makes `entry.metadata()?` fail. -/
def into_conversion (output : Path) (fs : FS) (entryPath : Path) :
    Except String (Option Conversion) :=
  match entryPath with
  | [] => Except.error "Cannot process current directory"
  | _ :: rest =>
    let path := output ++ rest
    match fsGet fs path with
    | none => Except.ok (some { src := entryPath, dst := path })
    | some d =>
      match fsGet fs entryPath with
      | none => Except.error "metadata"
      | some s =>
        if s.mtime > d.mtime then Except.ok (some { src := entryPath, dst := path })
        else Except.ok none

/-- The copy decision of `Builder::copy_static_data` (src/main.rs:217):
`!dst.exists() || dst.modified() < entry.modified()`. -/
def mirror_should_copy (fs : FS) (dst : Path) (srcMtime : Nat) : Bool :=
  match fsGet fs dst with
  | none => true
  | some d => decide (d.mtime < srcMtime)

/-- Modelled from the spec: the staleness rule of §3 — "a destination is
regenerated iff it does not exist, or its modification time is strictly
older than the source's".  Stated over the destination's entry (if any) and
the source's modification time, for comparison with the two code paths. -/
def regenerate_spec (dest : Option Entry) (srcMtime : Nat) : Prop :=
  dest = none ∨ ∃ d, dest = some d ∧ d.mtime < srcMtime

/-- **C2** — For every source file considered by the scanner and every
static asset considered by the mirror, the destination is regenerated (a
conversion task is emitted / the file is copied) iff the destination does
not exist or its modification time is strictly older than the source's.
Both code paths, `into_conversion` and the `copy_static_data` file branch,
coincide with the spec's staleness rule. -/
theorem scanner_and_mirror_staleness (output : Path) (fs : FS) (src : Path)
    (m : Nat) (bytes : List Nat) (hsrc : fsGet fs src = some (Entry.file m bytes))
    (hne : src ≠ []) :
    (into_conversion output fs src =
        Except.ok (some { src := src, dst := output ++ src.drop 1 }) ↔
      regenerate_spec (fsGet fs (output ++ src.drop 1)) m) ∧
    (∀ (dst : Path) (sm : Nat),
      mirror_should_copy fs dst sm = true ↔ regenerate_spec (fsGet fs dst) sm) := by
  constructor
  · obtain ⟨a, rest, rfl⟩ : ∃ a rest, src = a :: rest := by
      cases src with
      | nil => exact absurd rfl hne
      | cons a rest => exact ⟨a, rest, rfl⟩
    simp only [into_conversion, List.drop_succ_cons, List.drop_zero]
    cases hd : fsGet fs (output ++ rest) with
    | none =>
      simp [regenerate_spec]
    | some d =>
      rw [hsrc]
      simp only [Entry.mtime, gt_iff_lt]
      split_ifs with hlt
      · constructor
        · intro _
          exact Or.inr ⟨d, rfl, hlt⟩
        · intro _
          rfl
      · constructor
        · intro h
          simp at h
        · intro h
          rcases h with h | ⟨d', hd', hlt'⟩
          · simp at h
          · cases hd'
            exact absurd hlt' hlt
  · intro dst sm
    unfold mirror_should_copy
    cases hd : fsGet fs dst with
    | none => simp [regenerate_spec]
    | some d =>
      simp only [decide_eq_true_eq, regenerate_spec]
      constructor
      · intro h
        exact Or.inr ⟨d, rfl, h⟩
      · intro h
        rcases h with h | ⟨d', hd', hlt'⟩
        · cases h
        · cases hd'
          exact hlt'

/-- Witness for `scanner_and_mirror_staleness` at a concrete filesystem:
a source `in/a.jpg` at mtime 5 whose destination `out/a.jpg` exists with
mtime 3 (strictly older), so a task is emitted. -/
theorem scanner_and_mirror_staleness_witness :
    (into_conversion ["out"]
        [(["in", "a.jpg"], Entry.file 5 [1]), (["out", "a.jpg"], Entry.file 3 [2])]
        ["in", "a.jpg"] =
      Except.ok (some { src := ["in", "a.jpg"], dst := ["out", "a.jpg"] })) ∧
    mirror_should_copy
        [(["in", "a.jpg"], Entry.file 5 [1]), (["out", "a.jpg"], Entry.file 3 [2])]
        ["out", "a.jpg"] 5 = true := by
  have h := scanner_and_mirror_staleness ["out"]
    [(["in", "a.jpg"], Entry.file 5 [1]), (["out", "a.jpg"], Entry.file 3 [2])]
    ["in", "a.jpg"] 5 [1] (by decide) (by decide)
  constructor
  · exact h.1.mpr (Or.inr ⟨Entry.file 3 [2], by decide, by decide⟩)
  · exact (h.2 ["out", "a.jpg"] 5).mpr (Or.inr ⟨Entry.file 3 [2], by decide, by decide⟩)

/-! ## The transcode stage

`resize_and_save` (src/main.rs:80-84) and `Builder::process_image`
(src/main.rs:130-166).  The `image` crate is a collaborator, modelled by an
opaque codec record; time is an explicit parameter `t`: every file written
and every directory created during a build receives modification time `t`.
-/

/-- The opaque image codec: `decode(bytes)`, `resample(buffer, w, h)`,
`encode(buffer)`.  Decoding may fail (`CodecError`). -/
structure Codec (Img : Type) where
  decode : List Nat → Option Img
  resample : Img → Nat → Nat → Img
  encode : Img → List Nat

/-- `ThumbnailSize` (src/main.rs:29-33). -/
structure ThumbnailSize where
  width : Nat
  height : Nat
deriving DecidableEq

/-- `Resize` (src/main.rs:35-39). -/
structure Resize where
  width : Nat
  height : Nat
deriving DecidableEq

/-- `Config` (src/main.rs:41-47). -/
structure Config where
  input : Path
  output : Path
  thumbnail : ThumbnailSize
  resize : Option Resize
deriving DecidableEq

/-- The nonempty leading segments of a path, shortest first: the directories
`create_dir_all` has to consider. -/
def leadingDirs (p : Path) : List Path :=
  (List.range p.length).map (fun i => p.take (i + 1))

/-- `tokio::fs::create_dir_all`: create the directory and every missing
ancestor, each with modification time `t`.  Existing entries are left
untouched. -/
def create_dir_all (fs : FS) (p : Path) (t : Nat) : FS :=
  (leadingDirs p).foldl
    (fun acc q => if fsGet acc q = none then fsSet acc q (Entry.dir t) else acc) fs

/-- `resize_and_save` (src/main.rs:80-84): resample the image, encode and
write it to `path` — and return the *original* (unresized) image. -/
def resize_and_save {Img : Type} (c : Codec Img) (image : Img)
    (width height : Nat) (path : Path) (fs : FS) (t : Nat) : FS × Img :=
  (fsSet fs path (Entry.file t (c.encode (c.resample image width height))), image)

/-- Destination `thumbnails` directory of a task: `entry.to` popped once,
then `thumbnails` pushed (src/main.rs:131-133). -/
def thumbnailDir (conv : Conversion) : Path :=
  conv.dst.dropLast ++ ["thumbnails"]

/-- Thumbnail output path of a task: the `thumbnails` directory with the
destination's file name pushed (src/main.rs:139). -/
def thumbnailFile (conv : Conversion) : Path :=
  thumbnailDir conv ++ [lastName conv.dst]

/-- `Builder::process_image` after the source was opened and decoded
(src/main.rs:141-165): write the thumbnail, then either write the resampled
main rendition (`resize` configured) or copy the source bytes verbatim.
`none` models a decode failure, which aborts the task via `?` before the
progress counter is touched. -/
def process_image_decoded {Img : Type} (c : Codec Img) (cfg : Config)
    (conv : Conversion) (fs1 : FS) (t : Nat) (bytes : List Nat) :
    Option Img → FS × Nat × Bool
  | none => (fs1, 0, false)
  | some image =>
    let r1 := resize_and_save c image cfg.thumbnail.width cfg.thumbnail.height
      (thumbnailFile conv) fs1 t
    match cfg.resize with
    | some rc =>
      ((resize_and_save c r1.2 rc.width rc.height conv.dst r1.1 t).1, 1, true)
    | none =>
      (fsSet r1.1 conv.dst (Entry.file t bytes), 1, true)

/-- `Reader::open(entry.from.path())?.decode()?` (src/main.rs:141): opening
fails when the source is missing or is a directory. -/
def process_image_opened {Img : Type} (c : Codec Img) (cfg : Config)
    (conv : Conversion) (fs1 : FS) (t : Nat) : Option Entry → FS × Nat × Bool
  | some (Entry.file _ bytes) =>
    process_image_decoded c cfg conv fs1 t bytes (c.decode bytes)
  | _ => (fs1, 0, false)

/-- The `thumbnails` directory creation step of `process_image`
(src/main.rs:131-137): `if !thumbnail_path.exists() { create_dir_all(..) }`. -/
def ensure_thumbnail_dir (fs : FS) (conv : Conversion) (t : Nat) : FS :=
  if fsGet fs (thumbnailDir conv) = none then create_dir_all fs (thumbnailDir conv) t
  else fs

/-- `Builder::process_image` (src/main.rs:130-166).  Returns the filesystem
after the task's effects, the number of `progress_bar.inc(1)` calls, and
whether the task returned `Ok`.  Effects performed before a failure (the
`thumbnails` directory creation) persist. -/
def process_image {Img : Type} (c : Codec Img) (cfg : Config)
    (conv : Conversion) (fs : FS) (t : Nat) : FS × Nat × Bool :=
  process_image_opened c cfg conv (ensure_thumbnail_dir fs conv t) t
    (fsGet (ensure_thumbnail_dir fs conv t) conv.src)

theorem fsGet_create_dir_all_of_some {fs : FS} {p : Path} {e : Entry}
    (q : Path) (t : Nat) (h : fsGet fs p = some e) :
    fsGet (create_dir_all fs q t) p = some e := by
  unfold create_dir_all
  induction leadingDirs q generalizing fs with
  | nil => exact h
  | cons hd tl ih =>
    simp only [List.foldl_cons]
    by_cases hhd : fsGet fs hd = none
    · apply ih
      by_cases hpq : hd = p
      · cases hpq
        rw [h] at hhd
        cases hhd
      · simp [hhd, fsSet, hpq, h]
    · simp only [if_neg hhd]
      exact ih h

theorem fsGet_create_dir_all_not_mem {fs : FS} {p : Path}
    (q : Path) (t : Nat) (h : p ∉ leadingDirs q) :
    fsGet (create_dir_all fs q t) p = fsGet fs p := by
  unfold create_dir_all
  generalize leadingDirs q = l at h ⊢
  induction l generalizing fs with
  | nil => rfl
  | cons hd tl ih =>
    simp only [List.mem_cons, not_or] at h
    simp only [List.foldl_cons]
    by_cases hhd : fsGet fs hd = none
    · rw [if_pos hhd, ih h.2, fsGet_fsSet_ne _ _ _ _ (fun he => h.1 he.symm)]
    · rw [if_neg hhd]
      exact ih h.2

/-- Entries created by `create_dir_all` carry modification time `t`. -/
theorem fsGet_create_dir_all_cases (fs : FS) (q p : Path) (t : Nat) :
    fsGet (create_dir_all fs q t) p = fsGet fs p ∨
      fsGet (create_dir_all fs q t) p = some (Entry.dir t) := by
  unfold create_dir_all
  induction leadingDirs q generalizing fs with
  | nil => exact Or.inl rfl
  | cons hd tl ih =>
    simp only [List.foldl_cons]
    by_cases hhd : fsGet fs hd = none
    · rw [if_pos hhd]
      rcases ih (fsSet fs hd (Entry.dir t)) with h | h
      · by_cases hpq : hd = p
        · cases hpq
          rw [h, fsGet_fsSet_self]
          exact Or.inr rfl
        · rw [h, fsGet_fsSet_ne _ _ _ _ hpq]
          exact Or.inl rfl
      · exact Or.inr h
    · rw [if_neg hhd]
      exact ih fs

/-- **C4** — For every conversion task whose source decodes, the main
rendition at `dest_path` is the *single* decoded source image resampled to
the configured resize box when one is present (`resize_and_save` returns the
original decoded image, so the rendition is not a resample of the
thumbnail); with no resize box configured, the bytes written at `dest_path`
are byte-identical to the source file. -/
theorem main_rendition_from_single_decode {Img : Type} (c : Codec Img)
    (cfg : Config) (conv : Conversion) (fs : FS) (t m : Nat) (bytes : List Nat)
    (image : Img) (hsrc : fsGet fs conv.src = some (Entry.file m bytes))
    (hdec : c.decode bytes = some image) :
    (∀ rc : Resize, cfg.resize = some rc →
      fsGet (process_image c cfg conv fs t).1 conv.dst =
        some (Entry.file t (c.encode (c.resample image rc.width rc.height)))) ∧
    (cfg.resize = none →
      fsGet (process_image c cfg conv fs t).1 conv.dst =
        some (Entry.file t bytes)) := by
  have hsrc1 : fsGet (ensure_thumbnail_dir fs conv t) conv.src =
      some (Entry.file m bytes) := by
    unfold ensure_thumbnail_dir
    by_cases hth : fsGet fs (thumbnailDir conv) = none
    · rw [if_pos hth]
      exact fsGet_create_dir_all_of_some _ _ hsrc
    · rw [if_neg hth]
      exact hsrc
  unfold process_image
  rw [hsrc1]
  constructor
  · intro rc hrc
    simp only [process_image_opened, process_image_decoded, hdec, hrc,
      resize_and_save]
    exact fsGet_fsSet_self _ _ _
  · intro hrc
    simp only [process_image_opened, process_image_decoded, hdec, hrc,
      resize_and_save]
    exact fsGet_fsSet_self _ _ _

/-- Witness for `main_rendition_from_single_decode`: a concrete codec over
`Img := Nat` (`decode` sums the bytes, `resample` adds the box dimensions,
`encode` wraps in a singleton), one source `in/a.jpg` with bytes `[7]`.
With `resize = some ⟨10, 20⟩` the rendition is the encoded resample of the
decoded image; with `resize = none` it is the verbatim source bytes. -/
theorem main_rendition_from_single_decode_witness :
    (fsGet (process_image
        (Codec.mk (fun b => some (b.foldl (· + ·) 0)) (fun i w h => i + w + h)
          (fun i => [i]))
        { input := ["in"], output := ["out"], thumbnail := ⟨450, 300⟩,
          resize := some ⟨10, 20⟩ }
        { src := ["in", "a.jpg"], dst := ["out", "a.jpg"] }
        [(["in", "a.jpg"], Entry.file 3 [7])] 9).1 ["out", "a.jpg"] =
      some (Entry.file 9 [37])) ∧
    (fsGet (process_image
        (Codec.mk (fun b => some (b.foldl (· + ·) 0)) (fun i w h => i + w + h)
          (fun i => [i]))
        { input := ["in"], output := ["out"], thumbnail := ⟨450, 300⟩,
          resize := none }
        { src := ["in", "a.jpg"], dst := ["out", "a.jpg"] }
        [(["in", "a.jpg"], Entry.file 3 [7])] 9).1 ["out", "a.jpg"] =
      some (Entry.file 9 [7])) := by
  constructor
  · exact (main_rendition_from_single_decode _ _ _ _ 9 3 [7] 7 (by decide) rfl).1
      ⟨10, 20⟩ rfl
  · exact (main_rendition_from_single_decode _ _ _ _ 9 3 [7] 7 (by decide) rfl).2 rfl

/-- **C5 (amended)** — The shared progress counter is incremented exactly
once per task that completes *successfully* (on both the resize and the
verbatim-copy branches), and zero times when the task fails: in the code,
`progress_bar.inc(1)` sits after every fallible `?` operator of
`process_image`, so a failing task returns early without incrementing. -/
theorem progress_increment_iff_success {Img : Type} (c : Codec Img)
    (cfg : Config) (conv : Conversion) (fs : FS) (t : Nat) :
    (process_image c cfg conv fs t).2.1 =
      if (process_image c cfg conv fs t).2.2 = true then 1 else 0 := by
  unfold process_image
  generalize ensure_thumbnail_dir fs conv t = fs1
  cases hop : fsGet fs1 conv.src with
  | none => simp [process_image_opened, hop]
  | some e =>
    cases e with
    | dir m => simp [process_image_opened, hop]
    | file m bytes =>
      cases hdec : c.decode bytes with
      | none => simp [process_image_opened, process_image_decoded, hop, hdec]
      | some image =>
        cases hrc : cfg.resize with
        | none => simp [process_image_opened, process_image_decoded, hop, hdec, hrc]
        | some rc => simp [process_image_opened, process_image_decoded, hop, hdec, hrc]

/-- Counterexample to **C5** as stated: a conversion task whose decode fails
(the codec returns `none`) finishes on the failure branch with *zero*
increments of the progress counter, not one. -/
theorem failed_task_increments_zero :
    (process_image
        (Codec.mk (fun _ => (none : Option Nat)) (fun i _ _ => i) (fun i => [i]))
        { input := ["in"], output := ["out"], thumbnail := ⟨450, 300⟩,
          resize := none }
        { src := ["in", "a.jpg"], dst := ["out", "a.jpg"] }
        [(["in", "a.jpg"], Entry.file 3 [7])] 9).2.1 = 0 ∧
    (process_image
        (Codec.mk (fun _ => (none : Option Nat)) (fun i _ _ => i) (fun i => [i]))
        { input := ["in"], output := ["out"], thumbnail := ⟨450, 300⟩,
          resize := none }
        { src := ["in", "a.jpg"], dst := ["out", "a.jpg"] }
        [(["in", "a.jpg"], Entry.file 3 [7])] 9).2.2 = false := by
  constructor
  · rfl
  · rfl

/-- **C10 (amended)** — Processing a task touches only the task's
destination paths: `dest_path`, `dest_dir/thumbnails/<filename>`, and the
missing leading segments of `dest_dir/thumbnails` that `create_dir_all`
creates (which include `dest_dir` and its ancestors on a fresh output tree).
Any path outside that set — in particular the source file and the whole
input tree whenever it is disjoint from those destination paths — is left
untouched, on every outcome branch. -/
theorem process_image_write_set {Img : Type} (c : Codec Img) (cfg : Config)
    (conv : Conversion) (fs : FS) (t : Nat) (p : Path)
    (h1 : p ≠ conv.dst) (h2 : p ≠ thumbnailFile conv)
    (h3 : p ∉ leadingDirs (thumbnailDir conv)) :
    fsGet (process_image c cfg conv fs t).1 p = fsGet fs p := by
  have hfs1 : fsGet (ensure_thumbnail_dir fs conv t) p = fsGet fs p := by
    unfold ensure_thumbnail_dir
    by_cases hth : fsGet fs (thumbnailDir conv) = none
    · rw [if_pos hth]
      exact fsGet_create_dir_all_not_mem _ _ h3
    · rw [if_neg hth]
  unfold process_image
  generalize hgen : ensure_thumbnail_dir fs conv t = fs1 at hfs1 ⊢
  cases hop : fsGet fs1 conv.src with
  | none => simpa [process_image_opened, hop] using hfs1
  | some e =>
    cases e with
    | dir m => simpa [process_image_opened, hop] using hfs1
    | file m bytes =>
      cases hdec : c.decode bytes with
      | none =>
        simpa [process_image_opened, process_image_decoded, hop, hdec] using hfs1
      | some image =>
        cases hrc : cfg.resize with
        | none =>
          simp only [process_image_opened, process_image_decoded, hop, hdec, hrc,
            resize_and_save]
          rw [fsGet_fsSet_ne _ _ _ _ (fun he => h1 he.symm),
            fsGet_fsSet_ne _ _ _ _ (fun he => h2 he.symm)]
          exact hfs1
        | some rc =>
          simp only [process_image_opened, process_image_decoded, hop, hdec, hrc,
            resize_and_save]
          rw [fsGet_fsSet_ne _ _ _ _ (fun he => h1 he.symm),
            fsGet_fsSet_ne _ _ _ _ (fun he => h2 he.symm)]
          exact hfs1

/-- Counterexample to **C10** as stated: on a fresh (empty) output tree,
processing a task with destination `out/a/x.jpg` *creates the directory
`out`* — a path that is none of `dest_path`, the `thumbnails` subdirectory,
or the thumbnail file, contradicting the claim's enumeration of the write
set. -/
theorem process_image_creates_ancestor_dir :
    (fsGet (process_image
        (Codec.mk (fun _ => (none : Option Nat)) (fun i _ _ => i) (fun i => [i]))
        { input := ["in"], output := ["out"], thumbnail := ⟨450, 300⟩,
          resize := none }
        { src := ["in", "a", "x.jpg"], dst := ["out", "a", "x.jpg"] } [] 5).1
      ["out"] = some (Entry.dir 5)) ∧
    fsGet ([] : FS) ["out"] = none ∧
    ["out"] ≠ ["out", "a", "x.jpg"] ∧
    ["out"] ≠ thumbnailDir { src := ["in", "a", "x.jpg"], dst := ["out", "a", "x.jpg"] } ∧
    ["out"] ≠ thumbnailFile { src := ["in", "a", "x.jpg"], dst := ["out", "a", "x.jpg"] } := by
  refine ⟨?_, rfl, ?_, ?_, ?_⟩
  · rfl
  · decide
  · decide
  · decide

/-- Witness for `process_image_write_set`: the source file of the witness
task is untouched by processing it. -/
theorem process_image_write_set_witness :
    fsGet (process_image
        (Codec.mk (fun b => some (b.foldl (· + ·) 0)) (fun i w h => i + w + h)
          (fun i => [i]))
        { input := ["in"], output := ["out"], thumbnail := ⟨450, 300⟩,
          resize := none }
        { src := ["in", "a.jpg"], dst := ["out", "a.jpg"] }
        [(["in", "a.jpg"], Entry.file 3 [7])] 9).1 ["in", "a.jpg"] =
      fsGet [(["in", "a.jpg"], Entry.file 3 [7])] ["in", "a.jpg"] := by
  exact process_image_write_set _ _ _ _ 9 ["in", "a.jpg"] (by decide) (by decide)
    (by decide)

/-! ## Build-step invariants

Every write a build performs (file write or directory creation) happens at
the build's time `t` and at a path headed by the output root's first
component.  `Fresh` and `ExtendsWith` capture the two halves. -/

/-- Every path either still has its old entry, or holds an entry written at
time `t`. -/
def Fresh (t : Nat) (fs fs' : FS) : Prop :=
  ∀ p : Path, fsGet fs' p = fsGet fs p ∨ ∃ e, fsGet fs' p = some e ∧ e.mtime = t

/-- `fs'` is `fs` with finitely many bindings consed in front, all at paths
whose first component is `hd`. -/
def ExtendsWith (hd : String) (fs fs' : FS) : Prop :=
  ∃ pre : FS, fs' = pre ++ fs ∧ ∀ pe ∈ pre, pe.1.head? = some hd

theorem fresh_refl (t : Nat) (fs : FS) : Fresh t fs fs :=
  fun _ => Or.inl rfl

theorem fresh_trans {t : Nat} {fs1 fs2 fs3 : FS} (h12 : Fresh t fs1 fs2)
    (h23 : Fresh t fs2 fs3) : Fresh t fs1 fs3 := by
  intro p
  rcases h23 p with h | h
  · rw [h]
    exact h12 p
  · exact Or.inr h

theorem fresh_fsSet (t : Nat) (fs : FS) (p : Path) (e : Entry)
    (he : e.mtime = t) : Fresh t fs (fsSet fs p e) := by
  intro q
  by_cases hq : p = q
  · cases hq
    exact Or.inr ⟨e, fsGet_fsSet_self _ _ _, he⟩
  · exact Or.inl (fsGet_fsSet_ne _ _ _ _ hq)

theorem fresh_create_dir_all (t : Nat) (fs : FS) (q : Path) :
    Fresh t fs (create_dir_all fs q t) := by
  intro p
  rcases fsGet_create_dir_all_cases fs q p t with h | h
  · exact Or.inl h
  · exact Or.inr ⟨Entry.dir t, h, rfl⟩

theorem extendsWith_refl (hd : String) (fs : FS) : ExtendsWith hd fs fs :=
  ⟨[], rfl, by simp⟩

theorem extendsWith_trans {hd : String} {fs1 fs2 fs3 : FS}
    (h12 : ExtendsWith hd fs1 fs2) (h23 : ExtendsWith hd fs2 fs3) :
    ExtendsWith hd fs1 fs3 := by
  obtain ⟨p1, rfl, hp1⟩ := h12
  obtain ⟨p2, rfl, hp2⟩ := h23
  refine ⟨p2 ++ p1, by simp, ?_⟩
  intro pe hpe
  rcases List.mem_append.mp hpe with h | h
  · exact hp2 pe h
  · exact hp1 pe h

theorem extendsWith_fsSet {hd : String} (fs : FS) {p : Path} (e : Entry)
    (hp : p.head? = some hd) : ExtendsWith hd fs (fsSet fs p e) :=
  ⟨[(p, e)], rfl, by simpa using hp⟩

theorem head_of_mem_leadingDirs {q p : Path} (h : p ∈ leadingDirs q) :
    p.head? = q.head? := by
  unfold leadingDirs at h
  rcases List.mem_map.mp h with ⟨i, _, rfl⟩
  cases q with
  | nil => rfl
  | cons a as => simp [List.take_succ_cons]

theorem extendsWith_create_dir_all {hd : String} (fs : FS) {q : Path}
    (t : Nat) (hq : q.head? = some hd) :
    ExtendsWith hd fs (create_dir_all fs q t) := by
  unfold create_dir_all
  have hmem : ∀ p ∈ leadingDirs q, p.head? = some hd := by
    intro p hp
    rw [head_of_mem_leadingDirs hp, hq]
  generalize leadingDirs q = l at hmem
  induction l generalizing fs with
  | nil => exact extendsWith_refl hd fs
  | cons x xs ih =>
    simp only [List.foldl_cons]
    have hx : x.head? = some hd := hmem x (List.mem_cons_self x xs)
    have hxs : ∀ p ∈ xs, p.head? = some hd :=
      fun p hp => hmem p (List.mem_cons_of_mem x hp)
    by_cases hcase : fsGet fs x = none
    · rw [if_pos hcase]
      exact extendsWith_trans (extendsWith_fsSet fs (Entry.dir t) hx) (ih _ hxs)
    · rw [if_neg hcase]
      exact ih fs hxs

theorem fsGet_of_extendsWith {hd : String} {fs fs' : FS}
    (h : ExtendsWith hd fs fs') {p : Path} (hp : p.head? ≠ some hd) :
    fsGet fs' p = fsGet fs p := by
  obtain ⟨pre, rfl, hpre⟩ := h
  induction pre with
  | nil => rfl
  | cons pe rest ih =>
    obtain ⟨q, e⟩ := pe
    have hq : q ≠ p := by
      intro hqp
      exact hp (hqp ▸ hpre (q, e) (List.mem_cons_self _ _))
    simp only [List.cons_append, fsGet_cons, if_neg hq]
    exact ih (fun x hx => hpre x (List.mem_cons_of_mem _ hx))

theorem isSome_foldl_create (t : Nat) :
    ∀ (l : List Path) (fs : FS) (p : Path), (fsGet fs p).isSome = true →
      (fsGet (l.foldl
        (fun acc q => if fsGet acc q = none then fsSet acc q (Entry.dir t) else acc)
        fs) p).isSome = true := by
  intro l
  induction l with
  | nil => intro fs p h; exact h
  | cons x xs ih =>
    intro fs p h
    simp only [List.foldl_cons]
    by_cases hcase : fsGet fs x = none
    · rw [if_pos hcase]
      apply ih
      by_cases hxp : x = p
      · cases hxp
        rw [fsGet_fsSet_self]
        rfl
      · rw [fsGet_fsSet_ne _ _ _ _ hxp]
        exact h
    · rw [if_neg hcase]
      exact ih fs p h

theorem isSome_foldl_create_mem (t : Nat) :
    ∀ (l : List Path) (fs : FS) (p : Path), p ∈ l →
      (fsGet (l.foldl
        (fun acc q => if fsGet acc q = none then fsSet acc q (Entry.dir t) else acc)
        fs) p).isSome = true := by
  intro l
  induction l with
  | nil =>
    intro fs p h
    cases h
  | cons x xs ih =>
    intro fs p h
    simp only [List.foldl_cons]
    rcases List.mem_cons.mp h with h | h
    · cases h
      by_cases hcase : fsGet fs x = none
      · rw [if_pos hcase]
        apply isSome_foldl_create
        rw [fsGet_fsSet_self]
        rfl
      · rw [if_neg hcase]
        apply isSome_foldl_create
        cases hval : fsGet fs x with
        | none => exact absurd hval hcase
        | some e => rfl
    · by_cases hcase : fsGet fs x = none
      · rw [if_pos hcase]
        exact ih _ p h
      · rw [if_neg hcase]
        exact ih fs p h

theorem fsGet_create_dir_all_isSome {fs : FS} {p : Path} {q : Path} (t : Nat)
    (hp : p ∈ leadingDirs q) :
    (fsGet (create_dir_all fs q t) p).isSome = true := by
  unfold create_dir_all
  exact isSome_foldl_create_mem t (leadingDirs q) fs p hp

theorem mem_leadingDirs_self {q : Path} (hq : q ≠ []) : q ∈ leadingDirs q := by
  unfold leadingDirs
  refine List.mem_map.mpr ⟨q.length - 1, ?_, ?_⟩
  · refine List.mem_range.mpr ?_
    have : 0 < q.length := List.length_pos.mpr hq
    omega
  · have : q.length - 1 + 1 = q.length := by
      have : 0 < q.length := List.length_pos.mpr hq
      omega
    rw [this, List.take_length]

theorem head_append_of_ne_nil {l l2 : List String} (h : l ≠ []) :
    (l ++ l2).head? = l.head? := by
  cases l with
  | nil => exact absurd rfl h
  | cons a as => rfl

theorem head_dropLast {l : List String} (h : 2 ≤ l.length) :
    l.dropLast.head? = l.head? := by
  cases l with
  | nil => simp at h
  | cons a as =>
    cases as with
    | nil => simp at h
    | cons b bs => simp [List.dropLast]

theorem thumbnailDir_head {conv : Conversion} {hd : String}
    (h : conv.dst.head? = some hd) (hlen : 2 ≤ conv.dst.length) :
    (thumbnailDir conv).head? = some hd := by
  unfold thumbnailDir
  rw [head_append_of_ne_nil, head_dropLast hlen, h]
  intro hnil
  have := congrArg List.length hnil
  simp at this
  omega

theorem thumbnailFile_head {conv : Conversion} {hd : String}
    (h : conv.dst.head? = some hd) (hlen : 2 ≤ conv.dst.length) :
    (thumbnailFile conv).head? = some hd := by
  unfold thumbnailFile
  rw [head_append_of_ne_nil, thumbnailDir_head h hlen]
  intro hnil
  have := congrArg List.length hnil
  simp [thumbnailDir] at this

theorem fresh_fsSet_file (t : Nat) (fs : FS) (p : Path) (b : List Nat) :
    Fresh t fs (fsSet fs p (Entry.file t b)) :=
  fresh_fsSet t fs p (Entry.file t b) rfl

theorem fresh_ensure_thumbnail_dir (t : Nat) (fs : FS) (conv : Conversion) :
    Fresh t fs (ensure_thumbnail_dir fs conv t) := by
  unfold ensure_thumbnail_dir
  by_cases h : fsGet fs (thumbnailDir conv) = none
  · rw [if_pos h]
    exact fresh_create_dir_all t fs (thumbnailDir conv)
  · rw [if_neg h]
    exact fresh_refl t fs

theorem extends_ensure_thumbnail_dir {hd : String} (t : Nat) (fs : FS)
    {conv : Conversion} (hdst : conv.dst.head? = some hd)
    (hlen : 2 ≤ conv.dst.length) :
    ExtendsWith hd fs (ensure_thumbnail_dir fs conv t) := by
  unfold ensure_thumbnail_dir
  by_cases h : fsGet fs (thumbnailDir conv) = none
  · rw [if_pos h]
    exact extendsWith_create_dir_all fs t (thumbnailDir_head hdst hlen)
  · rw [if_neg h]
    exact extendsWith_refl hd fs

/-- `process_image` only writes entries carrying the build time `t`. -/
theorem process_image_fresh {Img : Type} (c : Codec Img) (cfg : Config)
    (conv : Conversion) (fs : FS) (t : Nat) :
    Fresh t fs (process_image c cfg conv fs t).1 := by
  unfold process_image
  generalize hgen : ensure_thumbnail_dir fs conv t = fs1
  have h1 : Fresh t fs fs1 := hgen ▸ fresh_ensure_thumbnail_dir t fs conv
  cases hop : fsGet fs1 conv.src with
  | none => simpa [process_image_opened] using h1
  | some e =>
    cases e with
    | dir m => simpa [process_image_opened] using h1
    | file m bytes =>
      cases hdec : c.decode bytes with
      | none =>
        simpa [process_image_opened, process_image_decoded, hdec] using h1
      | some image =>
        cases hrc : cfg.resize with
        | none =>
          simp only [process_image_opened, process_image_decoded, hdec, hrc,
            resize_and_save]
          exact fresh_trans h1 (fresh_trans (fresh_fsSet_file t fs1 _ _)
            (fresh_fsSet_file t _ _ _))
        | some rc =>
          simp only [process_image_opened, process_image_decoded, hdec, hrc,
            resize_and_save]
          exact fresh_trans h1 (fresh_trans (fresh_fsSet_file t fs1 _ _)
            (fresh_fsSet_file t _ _ _))

/-- `process_image` only writes at paths headed by the destination's first
component. -/
theorem process_image_extends {Img : Type} {hd : String} (c : Codec Img)
    (cfg : Config) {conv : Conversion} (fs : FS) (t : Nat)
    (hdst : conv.dst.head? = some hd) (hlen : 2 ≤ conv.dst.length) :
    ExtendsWith hd fs (process_image c cfg conv fs t).1 := by
  unfold process_image
  generalize hgen : ensure_thumbnail_dir fs conv t = fs1
  have h1 : ExtendsWith hd fs fs1 :=
    hgen ▸ extends_ensure_thumbnail_dir t fs hdst hlen
  cases hop : fsGet fs1 conv.src with
  | none => simpa [process_image_opened] using h1
  | some e =>
    cases e with
    | dir m => simpa [process_image_opened] using h1
    | file m bytes =>
      cases hdec : c.decode bytes with
      | none =>
        simpa [process_image_opened, process_image_decoded, hdec] using h1
      | some image =>
        cases hrc : cfg.resize with
        | none =>
          simp only [process_image_opened, process_image_decoded, hdec, hrc,
            resize_and_save]
          exact extendsWith_trans h1 (extendsWith_trans
            (extendsWith_fsSet fs1 _ (thumbnailFile_head hdst hlen))
            (extendsWith_fsSet _ _ hdst))
        | some rc =>
          simp only [process_image_opened, process_image_decoded, hdec, hrc,
            resize_and_save]
          exact extendsWith_trans h1 (extendsWith_trans
            (extendsWith_fsSet fs1 _ (thumbnailFile_head hdst hlen))
            (extendsWith_fsSet _ _ hdst))

/-- A task whose source is readable and decodes successfully writes its main
rendition: afterwards `dest_path` holds an entry with modification time `t`. -/
theorem process_image_writes_dst {Img : Type} (c : Codec Img) (cfg : Config)
    (conv : Conversion) (fs : FS) (t m : Nat) (bytes : List Nat)
    (hsrc : fsGet fs conv.src = some (Entry.file m bytes))
    (hdec : (c.decode bytes).isSome = true) :
    ∃ e, fsGet (process_image c cfg conv fs t).1 conv.dst = some e ∧
      e.mtime = t := by
  have hsrc1 : fsGet (ensure_thumbnail_dir fs conv t) conv.src =
      some (Entry.file m bytes) := by
    unfold ensure_thumbnail_dir
    by_cases hth : fsGet fs (thumbnailDir conv) = none
    · rw [if_pos hth]
      exact fsGet_create_dir_all_of_some _ _ hsrc
    · rw [if_neg hth]
      exact hsrc
  obtain ⟨image, himage⟩ := Option.isSome_iff_exists.mp hdec
  unfold process_image
  rw [hsrc1]
  cases hrc : cfg.resize with
  | none =>
    simp only [process_image_opened, process_image_decoded, himage, hrc,
      resize_and_save]
    exact ⟨Entry.file t bytes, fsGet_fsSet_self _ _ _, rfl⟩
  | some rc =>
    simp only [process_image_opened, process_image_decoded, himage, hrc,
      resize_and_save]
    exact ⟨_, fsGet_fsSet_self _ _ _, rfl⟩

/-! ## The scanner and the transcode loop

`Builder::process_images` (src/main.rs:168-195). -/

/-- The file enumeration of the scanner's `WalkDir` (src/main.rs:171-175):
the regular files of `fs` lying under `root`.  Walk order is not
guaranteed; here it is the association-list order. -/
def walkFiles (fs : FS) (root : Path) : List Path :=
  fs.filterMap
    (fun pe => if isUnder root pe.1 && pe.2.isFile then some pe.1 else none)

/-- The work-list construction of `process_images` (src/main.rs:171-179):
walk the input root, keep files matching the extension filter, map
`into_conversion`, and drop per-entry errors (`filter_map(Result::ok)`) as
well as up-to-date files (`filter_map(|e| e)`). -/
def scanTasks (cfg : Config) (fs : FS) : List Conversion :=
  ((walkFiles fs cfg.input).filter (fun p => fileMatches (lastName p))).filterMap
    (fun p =>
      match into_conversion cfg.output fs p with
      | Except.ok (some conv) => some conv
      | _ => none)

/-- The transcode loop (src/main.rs:187-192): run every task's
`process_image` future (`join_all`, here linearized — across tasks the
writes target disjoint paths), accumulating the progress increments.
Individual task results are discarded. -/
def run_tasks {Img : Type} (c : Codec Img) (cfg : Config) (t : Nat) :
    List Conversion → FS → FS × Nat
  | [], fs => (fs, 0)
  | tsk :: rest, fs =>
    ((run_tasks c cfg t rest (process_image c cfg tsk fs t).1).1,
      (process_image c cfg tsk fs t).2.1 +
        (run_tasks c cfg t rest (process_image c cfg tsk fs t).1).2)

/-- `Builder::process_images` (src/main.rs:168-195): collect the work list,
run all tasks, ignore the individual results (`join_all(futures).await;`),
and return `Ok(())`. -/
def process_images_run {Img : Type} (c : Codec Img) (cfg : Config) (fs : FS)
    (t : Nat) : FS × Nat × Except String Unit :=
  ((run_tasks c cfg t (scanTasks cfg fs) fs).1,
    (run_tasks c cfg t (scanTasks cfg fs) fs).2, Except.ok ())

theorem run_tasks_append {Img : Type} (c : Codec Img) (cfg : Config) (t : Nat) :
    ∀ (l1 l2 : List Conversion) (fs : FS),
      (run_tasks c cfg t (l1 ++ l2) fs).1 =
        (run_tasks c cfg t l2 (run_tasks c cfg t l1 fs).1).1 := by
  intro l1
  induction l1 with
  | nil => intro l2 fs; rfl
  | cons tsk rest ih =>
    intro l2 fs
    simp only [List.cons_append, run_tasks]
    exact ih l2 _

theorem run_tasks_fresh {Img : Type} (c : Codec Img) (cfg : Config) (t : Nat) :
    ∀ (tasks : List Conversion) (fs : FS),
      Fresh t fs (run_tasks c cfg t tasks fs).1 := by
  intro tasks
  induction tasks with
  | nil => intro fs; exact fresh_refl t fs
  | cons tsk rest ih =>
    intro fs
    simp only [run_tasks]
    exact fresh_trans (process_image_fresh c cfg tsk fs t) (ih _)

theorem run_tasks_extends {Img : Type} {hd : String} (c : Codec Img)
    (cfg : Config) (t : Nat) :
    ∀ (tasks : List Conversion) (fs : FS),
      (∀ tsk ∈ tasks, tsk.dst.head? = some hd ∧ 2 ≤ tsk.dst.length) →
      ExtendsWith hd fs (run_tasks c cfg t tasks fs).1 := by
  intro tasks
  induction tasks with
  | nil => intro fs _; exact extendsWith_refl hd fs
  | cons tsk rest ih =>
    intro fs hshape
    simp only [run_tasks]
    have h0 := hshape tsk (List.mem_cons_self _ _)
    exact extendsWith_trans (process_image_extends c cfg fs t h0.1 h0.2)
      (ih _ (fun x hx => hshape x (List.mem_cons_of_mem _ hx)))

/-- After the transcode loop, every task whose source was readable at loop
start (and stays off the written heads) has its destination materialized
with modification time `t` — independently of any other task's outcome. -/
theorem run_tasks_dests {Img : Type} {hd : String} (c : Codec Img)
    (cfg : Config) (t : Nat) (hdec : ∀ b, (c.decode b).isSome = true) :
    ∀ (tasks : List Conversion) (fs : FS),
      (∀ tsk ∈ tasks, tsk.dst.head? = some hd ∧ 2 ≤ tsk.dst.length ∧
        tsk.src.head? ≠ some hd ∧
        ∃ m b, fsGet fs tsk.src = some (Entry.file m b)) →
      ∀ tsk ∈ tasks,
        ∃ e, fsGet (run_tasks c cfg t tasks fs).1 tsk.dst = some e ∧
          e.mtime = t := by
  intro tasks
  induction tasks with
  | nil =>
    intro fs _ tsk htsk
    cases htsk
  | cons tsk0 rest ih =>
    intro fs hshape tsk htsk
    obtain ⟨hd0, hl0, hs0, m0, b0, hsrc0⟩ := hshape tsk0 (List.mem_cons_self _ _)
    simp only [run_tasks]
    rcases List.mem_cons.mp htsk with h | h
    · cases h
      obtain ⟨e, he, het⟩ :=
        process_image_writes_dst c cfg tsk0 fs t m0 b0 hsrc0 (hdec b0)
      rcases run_tasks_fresh c cfg t rest (process_image c cfg tsk0 fs t).1
        tsk0.dst with hsame | ⟨e', he', het'⟩
      · exact ⟨e, hsame.trans he, het⟩
      · exact ⟨e', he', het'⟩
    · apply ih
      · intro x hx
        obtain ⟨hdx, hlx, hsx, mx, bx, hsrcx⟩ := hshape x (List.mem_cons_of_mem _ hx)
        refine ⟨hdx, hlx, hsx, mx, bx, ?_⟩
        rw [fsGet_of_extendsWith
          (process_image_extends c cfg fs t hd0 hl0) hsx]
        exact hsrcx
      · exact h

/-- **C7** — Task-failure isolation: whatever the outcomes of the tasks
before and after it, a task that succeeds at its turn has its destination
present in the final filesystem; and `process_images` itself completes with
`Ok(())` after all tasks ran, regardless of individual task outcomes. -/
theorem task_failure_isolation {Img : Type} (c : Codec Img) (cfg : Config)
    (t : Nat) (pre post : List Conversion) (tsk : Conversion) (fs : FS)
    (m : Nat) (bytes : List Nat)
    (hsrc : fsGet (run_tasks c cfg t pre fs).1 tsk.src =
      some (Entry.file m bytes))
    (hdec : (c.decode bytes).isSome = true) :
    (∃ e, fsGet (run_tasks c cfg t (pre ++ tsk :: post) fs).1 tsk.dst = some e) ∧
    (∀ fs' : FS, (process_images_run c cfg fs' t).2.2 = Except.ok ()) := by
  constructor
  · rw [run_tasks_append]
    generalize (run_tasks c cfg t pre fs).1 = fs1 at hsrc
    simp only [run_tasks]
    obtain ⟨e, he, _⟩ :=
      process_image_writes_dst c cfg tsk fs1 t m bytes hsrc hdec
    rcases run_tasks_fresh c cfg t post (process_image c cfg tsk fs1 t).1
      tsk.dst with hsame | ⟨e', he', _⟩
    · exact ⟨e, hsame.trans he⟩
    · exact ⟨e', he'⟩
  · intro fs'
    rfl

/-- Witness for `task_failure_isolation`: three tasks; the middle task's
source is missing entirely (its `Reader::open` fails), yet the flanking
task's destination is present afterwards and the stage returns `Ok(())`. -/
theorem task_failure_isolation_witness :
    (∃ e, fsGet (run_tasks
        (Codec.mk (fun b => some (b.foldl (· + ·) 0)) (fun i w h => i + w + h)
          (fun i => [i]))
        { input := ["in"], output := ["out"], thumbnail := ⟨450, 300⟩,
          resize := none } 9
        ([{ src := ["in", "missing.jpg"], dst := ["out", "missing.jpg"] }] ++
          { src := ["in", "a.jpg"], dst := ["out", "a.jpg"] } :: [])
        [(["in", "a.jpg"], Entry.file 3 [7])]).1 ["out", "a.jpg"] = some e) ∧
    (∀ fs' : FS, (process_images_run
        (Codec.mk (fun b => some (b.foldl (· + ·) 0)) (fun i w h => i + w + h)
          (fun i => [i]))
        { input := ["in"], output := ["out"], thumbnail := ⟨450, 300⟩,
          resize := none } fs' 9).2.2 = Except.ok ()) :=
  task_failure_isolation
    (Codec.mk (fun b => some (b.foldl (· + ·) 0)) (fun i w h => i + w + h)
      (fun i => [i]))
    { input := ["in"], output := ["out"], thumbnail := ⟨450, 300⟩,
      resize := none } 9
    [{ src := ["in", "missing.jpg"], dst := ["out", "missing.jpg"] }] []
    { src := ["in", "a.jpg"], dst := ["out", "a.jpg"] }
    [(["in", "a.jpg"], Entry.file 3 [7])] 3 [7] (by decide) (by decide)

/-! ## The asset mirror

`Builder::copy_static_data` (src/main.rs:197-224). -/

/-- The mirror's source root `_theme/static` (src/main.rs:198). -/
def themeStaticRoot : Path := ["_theme", "static"]

/-- Mirror destination of a source entry:
`dst_root.join(entry.strip_prefix(&src_root))` with
`dst_root = output.join("static")` (src/main.rs:204-209). -/
def mirror_dst (output : Path) (p : Path) : Path :=
  output ++ ["static"] ++ p.drop themeStaticRoot.length

/-- The mirror's `WalkDir` enumeration: all entries of `fs` under `root`,
the root itself included. -/
def walkAll (fs : FS) (root : Path) : List (Path × Entry) :=
  fs.filter (fun pe => isUnder root pe.1)

/-- One loop iteration of `copy_static_data` (src/main.rs:206-221): create
a missing destination directory, or copy a missing-or-stale file (bumping
the copy counter; the copy carries the source bytes at time `t`). -/
def copy_static_step (output : Path) (t : Nat) (acc : FS × Nat) :
    Path × Entry → FS × Nat
  | (p, Entry.dir _) =>
    if fsGet acc.1 (mirror_dst output p) = none then
      (create_dir_all acc.1 (mirror_dst output p) t, acc.2)
    else acc
  | (p, Entry.file m bytes) =>
    if mirror_should_copy acc.1 (mirror_dst output p) m then
      (fsSet acc.1 (mirror_dst output p) (Entry.file t bytes), acc.2 + 1)
    else acc

/-- The mirror loop over the walked entries. -/
def mirror_entries (output : Path) (t : Nat) :
    List (Path × Entry) → FS × Nat → FS × Nat
  | [], acc => acc
  | pe :: rest, acc =>
    mirror_entries output t rest (copy_static_step output t acc pe)

/-- `Builder::copy_static_data` (src/main.rs:197-224): a no-op unless
`_theme/static` is a directory; otherwise mirror every walked entry.
Returns the filesystem and the number of files copied. -/
def copy_static_run (cfg : Config) (fs : FS) (t : Nat) : FS × Nat :=
  match fsGet fs themeStaticRoot with
  | some (Entry.dir _) =>
    mirror_entries cfg.output t (walkAll fs themeStaticRoot) (fs, 0)
  | _ => (fs, 0)

theorem mirror_dst_ne_nil (output : Path) (p : Path) :
    mirror_dst output p ≠ [] := by
  unfold mirror_dst
  intro h
  have := congrArg List.length h
  simp at this

theorem mirror_dst_head {output : Path} {hd : String}
    (h : output.head? = some hd) (p : Path) :
    (mirror_dst output p).head? = some hd := by
  have hne : output ≠ [] := by
    intro hnil
    rw [hnil] at h
    cases h
  unfold mirror_dst
  rw [head_append_of_ne_nil, head_append_of_ne_nil hne, h]
  simp [hne]

theorem copy_static_step_fresh (output : Path) (t : Nat) (acc : FS × Nat)
    (pe : Path × Entry) : Fresh t acc.1 (copy_static_step output t acc pe).1 := by
  obtain ⟨q, e⟩ := pe
  cases e with
  | dir k =>
    simp only [copy_static_step]
    by_cases h : fsGet acc.1 (mirror_dst output q) = none
    · rw [if_pos h]
      exact fresh_create_dir_all t acc.1 _
    · rw [if_neg h]
      exact fresh_refl t acc.1
  | file m bytes =>
    simp only [copy_static_step]
    by_cases h : mirror_should_copy acc.1 (mirror_dst output q) m = true
    · rw [if_pos h]
      exact fresh_fsSet_file t acc.1 _ _
    · rw [if_neg h]
      exact fresh_refl t acc.1

theorem copy_static_step_extends {hd : String} {output : Path} (t : Nat)
    (acc : FS × Nat) (pe : Path × Entry) (h : output.head? = some hd) :
    ExtendsWith hd acc.1 (copy_static_step output t acc pe).1 := by
  obtain ⟨q, e⟩ := pe
  cases e with
  | dir k =>
    simp only [copy_static_step]
    by_cases hc : fsGet acc.1 (mirror_dst output q) = none
    · rw [if_pos hc]
      exact extendsWith_create_dir_all acc.1 t (mirror_dst_head h q)
    · rw [if_neg hc]
      exact extendsWith_refl hd acc.1
  | file m bytes =>
    simp only [copy_static_step]
    by_cases hc : mirror_should_copy acc.1 (mirror_dst output q) m = true
    · rw [if_pos hc]
      exact extendsWith_fsSet acc.1 _ (mirror_dst_head h q)
    · rw [if_neg hc]
      exact extendsWith_refl hd acc.1

theorem mirror_entries_fresh (output : Path) (t : Nat) :
    ∀ (entries : List (Path × Entry)) (acc : FS × Nat),
      Fresh t acc.1 (mirror_entries output t entries acc).1 := by
  intro entries
  induction entries with
  | nil => intro acc; exact fresh_refl t acc.1
  | cons pe rest ih =>
    intro acc
    simp only [mirror_entries]
    exact fresh_trans (copy_static_step_fresh output t acc pe) (ih _)

theorem mirror_entries_extends {hd : String} {output : Path} (t : Nat)
    (h : output.head? = some hd) :
    ∀ (entries : List (Path × Entry)) (acc : FS × Nat),
      ExtendsWith hd acc.1 (mirror_entries output t entries acc).1 := by
  intro entries
  induction entries with
  | nil => intro acc; exact extendsWith_refl hd acc.1
  | cons pe rest ih =>
    intro acc
    simp only [mirror_entries]
    exact extendsWith_trans (copy_static_step_extends t acc pe h) (ih _)

/-- After the mirror loop, every walked entry's destination exists; for
file entries it is at least as fresh as the source. -/
theorem mirror_entries_post (output : Path) (t : Nat) :
    ∀ (entries : List (Path × Entry)) (acc : FS × Nat),
      (∀ pe ∈ entries, pe.2.mtime ≤ t) →
      ∀ pe ∈ entries,
        ∃ d, fsGet (mirror_entries output t entries acc).1
            (mirror_dst output pe.1) = some d ∧
          (pe.2.isFile = true → pe.2.mtime ≤ d.mtime) := by
  intro entries
  induction entries with
  | nil =>
    intro acc _ pe hpe
    cases hpe
  | cons pe0 rest ih =>
    intro acc hmt pe hpe
    simp only [mirror_entries]
    rcases List.mem_cons.mp hpe with h | h
    · cases h
      obtain ⟨q0, e0⟩ := pe0
      have hmt0 : e0.mtime ≤ t := hmt (q0, e0) (List.mem_cons_self _ _)
      have hstep : ∃ d, fsGet (copy_static_step output t acc (q0, e0)).1
          (mirror_dst output q0) = some d ∧
          (e0.isFile = true → e0.mtime ≤ d.mtime) := by
        cases e0 with
        | dir k =>
          simp only [copy_static_step]
          by_cases hc : fsGet acc.1 (mirror_dst output q0) = none
          · rw [if_pos hc]
            have := @fsGet_create_dir_all_isSome acc.1
              (mirror_dst output q0) (mirror_dst output q0) t
              (mem_leadingDirs_self (mirror_dst_ne_nil output q0))
            obtain ⟨d, hd⟩ := Option.isSome_iff_exists.mp this
            exact ⟨d, hd, by simp [Entry.isFile]⟩
          · rw [if_neg hc]
            cases hval : fsGet acc.1 (mirror_dst output q0) with
            | none => exact absurd hval hc
            | some d => exact ⟨d, rfl, by simp [Entry.isFile]⟩
        | file m bytes =>
          simp only [copy_static_step]
          by_cases hc : mirror_should_copy acc.1 (mirror_dst output q0) m = true
          · rw [if_pos hc]
            refine ⟨Entry.file t bytes, fsGet_fsSet_self _ _ _, ?_⟩
            intro _
            simpa [Entry.mtime] using hmt0
          · rw [if_neg hc]
            unfold mirror_should_copy at hc
            cases hval : fsGet acc.1 (mirror_dst output q0) with
            | none => rw [hval] at hc; simp at hc
            | some d =>
              rw [hval] at hc
              simp only [decide_eq_true_eq] at hc
              refine ⟨d, rfl, ?_⟩
              intro _
              show m ≤ d.mtime
              omega
      obtain ⟨d, hd, hcond⟩ := hstep
      rcases mirror_entries_fresh output t rest (copy_static_step output t acc (q0, e0))
        (mirror_dst output q0) with hsame | ⟨e', he', het'⟩
      · exact ⟨d, hsame.trans hd, hcond⟩
      · refine ⟨e', he', ?_⟩
        intro hfile
        simp only [het']
        omega
    · exact ih _ (fun x hx => hmt x (List.mem_cons_of_mem _ hx)) pe h

/-- If every walked entry's destination is already present and fresh, the
mirror loop copies nothing and leaves the filesystem unchanged. -/
theorem mirror_entries_noop (output : Path) (t : Nat) :
    ∀ (entries : List (Path × Entry)) (fs : FS),
      (∀ pe ∈ entries,
        (∀ k, pe.2 = Entry.dir k → ¬ fsGet fs (mirror_dst output pe.1) = none) ∧
        (∀ m bytes, pe.2 = Entry.file m bytes →
          mirror_should_copy fs (mirror_dst output pe.1) m = false)) →
      ∀ n, mirror_entries output t entries (fs, n) = (fs, n) := by
  intro entries
  induction entries with
  | nil =>
    intro fs _ n
    rfl
  | cons pe0 rest ih =>
    intro fs hcond n
    obtain ⟨hdir, hfile⟩ := hcond pe0 (List.mem_cons_self _ _)
    have hstep : copy_static_step output t (fs, n) pe0 = (fs, n) := by
      obtain ⟨q0, e0⟩ := pe0
      cases e0 with
      | dir k =>
        simp only [copy_static_step]
        rw [if_neg (hdir k rfl)]
      | file m bytes =>
        simp only [copy_static_step]
        rw [hfile m bytes rfl]
        simp
    simp only [mirror_entries, hstep]
    exact ih fs (fun x hx => hcond x (List.mem_cons_of_mem _ hx)) n

theorem walkAll_extendsWith {hd : String} {fs fs' : FS}
    (h : ExtendsWith hd fs fs') {root : Path} (hroot : root.head? ≠ some hd)
    (hrne : root ≠ []) : walkAll fs' root = walkAll fs root := by
  obtain ⟨pre, rfl, hpre⟩ := h
  unfold walkAll
  rw [List.filter_append]
  have hnil : pre.filter (fun pe => isUnder root pe.1) = [] := by
    rw [List.filter_eq_nil_iff]
    intro pe hpe
    intro hcontra
    exact hroot ((head_eq_of_isUnder root pe.1 hrne hcontra) ▸ hpre pe hpe)
  rw [hnil, List.nil_append]

theorem walkFiles_extendsWith {hd : String} {fs fs' : FS}
    (h : ExtendsWith hd fs fs') {root : Path} (hroot : root.head? ≠ some hd)
    (hrne : root ≠ []) : walkFiles fs' root = walkFiles fs root := by
  obtain ⟨pre, rfl, hpre⟩ := h
  unfold walkFiles
  rw [List.filterMap_append]
  have hnil : pre.filterMap
      (fun pe => if isUnder root pe.1 && pe.2.isFile then some pe.1 else none) =
      [] := by
    rw [List.filterMap_eq_nil_iff]
    intro pe hpe
    have : isUnder root pe.1 = false := by
      cases hu : isUnder root pe.1 with
      | false => rfl
      | true =>
        exact absurd ((head_eq_of_isUnder root pe.1 hrne hu) ▸ hpre pe hpe) hroot
    simp [this]
  rw [hnil, List.nil_append]

theorem walkFiles_mem {fs : FS} {root p : Path} (h : p ∈ walkFiles fs root) :
    ∃ e, (p, e) ∈ fs ∧ e.isFile = true ∧ isUnder root p = true := by
  unfold walkFiles at h
  rcases List.mem_filterMap.mp h with ⟨pe, hpe, hif⟩
  obtain ⟨q, e⟩ := pe
  by_cases hcond : (isUnder root q && e.isFile) = true
  · rw [if_pos hcond] at hif
    have hcond' := hcond
    simp only [Bool.and_eq_true] at hcond'
    obtain ⟨hu, hf⟩ := hcond'
    cases hif
    exact ⟨e, hpe, hf, hu⟩
  · rw [if_neg hcond] at hif
    cases hif

theorem into_conversion_ok_some_shape {output : Path} {fs : FS} {p : Path}
    {conv : Conversion}
    (h : into_conversion output fs p = Except.ok (some conv)) :
    conv.src = p ∧ conv.dst = output ++ p.drop 1 ∧ p ≠ [] := by
  cases p with
  | nil => exact (Except.noConfusion h)
  | cons a rest =>
    simp only [into_conversion] at h
    cases hd : fsGet fs (output ++ rest) with
    | none =>
      rw [hd] at h
      dsimp only at h
      have h2 : { src := a :: rest, dst := output ++ rest : Conversion } = conv :=
        Option.some.inj (Except.ok.inj h)
      subst h2
      exact ⟨rfl, by simp, by simp⟩
    | some d =>
      rw [hd] at h
      dsimp only at h
      cases hs : fsGet fs (a :: rest) with
      | none =>
        rw [hs] at h
        dsimp only at h
        exact (Except.noConfusion h)
      | some s =>
        rw [hs] at h
        dsimp only at h
        by_cases hlt : s.mtime > d.mtime
        · rw [if_pos hlt] at h
          have h2 : { src := a :: rest, dst := output ++ rest : Conversion } = conv :=
            Option.some.inj (Except.ok.inj h)
          subst h2
          exact ⟨rfl, by simp, by simp⟩
        · rw [if_neg hlt] at h
          exact (Option.noConfusion (Except.ok.inj h))

theorem into_conversion_ok_none_dst {output : Path} {fs : FS} {a : String}
    {rest : Path} {s : Entry} (hs : fsGet fs (a :: rest) = some s)
    (h : into_conversion output fs (a :: rest) = Except.ok none) :
    ∃ d, fsGet fs (output ++ rest) = some d ∧ ¬ s.mtime > d.mtime := by
  simp only [into_conversion] at h
  cases hd : fsGet fs (output ++ rest) with
  | none =>
    rw [hd] at h
    dsimp only at h
    exact (Option.noConfusion (Except.ok.inj h))
  | some d =>
    rw [hd, hs] at h
    dsimp only at h
    by_cases hlt : s.mtime > d.mtime
    · rw [if_pos hlt] at h
      exact (Option.noConfusion (Except.ok.inj h))
    · exact ⟨d, rfl, hlt⟩

theorem into_conversion_total {output : Path} {fs : FS} {a : String}
    {rest : Path} {s : Entry} (hs : fsGet fs (a :: rest) = some s) :
    into_conversion output fs (a :: rest) =
        Except.ok (some { src := a :: rest, dst := output ++ rest }) ∨
      into_conversion output fs (a :: rest) = Except.ok none := by
  simp only [into_conversion]
  cases hd : fsGet fs (output ++ rest) with
  | none => exact Or.inl rfl
  | some d =>
    rw [hs]
    dsimp only
    by_cases hlt : s.mtime > d.mtime
    · rw [if_pos hlt]
      exact Or.inl rfl
    · rw [if_neg hlt]
      exact Or.inr rfl

theorem scanTasks_mem {cfg : Config} {fs : FS} {conv : Conversion}
    (h : conv ∈ scanTasks cfg fs) :
    ∃ e, (conv.src, e) ∈ fs ∧ e.isFile = true ∧
      isUnder cfg.input conv.src = true ∧
      fileMatches (lastName conv.src) = true ∧
      conv.dst = cfg.output ++ conv.src.drop 1 := by
  unfold scanTasks at h
  rcases List.mem_filterMap.mp h with ⟨p, hpf, hfn⟩
  rcases List.mem_filter.mp hpf with ⟨hpw, hmatch⟩
  obtain ⟨e, hmem, hfile, hunder⟩ := walkFiles_mem hpw
  cases hic : into_conversion cfg.output fs p with
  | error err =>
    rw [hic] at hfn
    cases hfn
  | ok o =>
    cases o with
    | none =>
      rw [hic] at hfn
      cases hfn
    | some conv' =>
      rw [hic] at hfn
      have hcc : conv' = conv := Option.some.inj hfn
      subst hcc
      obtain ⟨hsrc, hdst, _⟩ := into_conversion_ok_some_shape hic
      subst hsrc
      exact ⟨e, hmem, hfile, hunder, hmatch, hdst⟩

theorem mem_scanTasks_of {cfg : Config} {fs : FS} {p : Path}
    {conv : Conversion} (hpw : p ∈ walkFiles fs cfg.input)
    (hmatch : fileMatches (lastName p) = true)
    (hic : into_conversion cfg.output fs p = Except.ok (some conv)) :
    conv ∈ scanTasks cfg fs := by
  unfold scanTasks
  refine List.mem_filterMap.mpr ⟨p, List.mem_filter.mpr ⟨hpw, hmatch⟩, ?_⟩
  rw [hic]

theorem ne_nil_of_isUnder {root p : Path} (hr : root ≠ [])
    (h : isUnder root p = true) : p ≠ [] := by
  intro hnil
  subst hnil
  cases root with
  | nil => exact hr rfl
  | cons a as => simp [isUnder] at h

/-- Shape facts about every emitted task, needed to run the build-step
invariants: destinations live under the output head, sources do not. -/
theorem scanTasks_shape {cfg : Config} {fs : FS} {o : String} {os : Path}
    (houtc : cfg.output = o :: os)
    (hnodup : (fs.map Prod.fst).Nodup)
    (hin : cfg.input ≠ [])
    (hio : cfg.input.head? ≠ cfg.output.head?)
    (hinroot : ∀ e : Entry, (cfg.input, e) ∈ fs → e.isFile = false) :
    ∀ tsk ∈ scanTasks cfg fs, tsk.dst.head? = some o ∧ 2 ≤ tsk.dst.length ∧
      tsk.src.head? ≠ some o ∧
      ∃ m b, fsGet fs tsk.src = some (Entry.file m b) := by
  intro tsk htsk
  obtain ⟨e, hmem, hfile, hunder, hmatch, hdst⟩ := scanTasks_mem htsk
  have hsrcget : fsGet fs tsk.src = some e := fsGet_of_mem hnodup hmem
  have hsrchead : tsk.src.head? = cfg.input.head? :=
    head_eq_of_isUnder cfg.input tsk.src hin hunder
  have hsrcne : tsk.src ≠ cfg.input := by
    intro heq
    rw [heq] at hmem
    rw [hinroot e hmem] at hfile
    cases hfile
  have hsplit := exists_drop_of_isUnder cfg.input tsk.src hunder
  have hdropne : tsk.src.drop cfg.input.length ≠ [] := by
    intro hnil
    rw [hnil, List.append_nil] at hsplit
    exact hsrcne hsplit
  have hsrclen : cfg.input.length + 1 ≤ tsk.src.length := by
    have := congrArg List.length hsplit
    rw [List.length_append] at this
    have hpos : 0 < (tsk.src.drop cfg.input.length).length :=
      List.length_pos.mpr hdropne
    omega
  have hinlen : 1 ≤ cfg.input.length := by
    have := List.length_pos.mpr hin
    omega
  refine ⟨?_, ?_, ?_, ?_⟩
  · rw [hdst, houtc]
    rfl
  · rw [hdst, List.length_append, houtc]
    have : 1 ≤ (tsk.src.drop 1).length := by
      rw [List.length_drop]
      omega
    simp only [List.length_cons]
    omega
  · rw [hsrchead, houtc] at *
    intro hcontra
    exact hio (by rw [hsrchead, houtc]; exact hcontra)
  · cases e with
    | file m b => exact ⟨m, b, hsrcget⟩
    | dir k => cases hfile

theorem copy_static_run_fresh (cfg : Config) (fs : FS) (t : Nat) :
    Fresh t fs (copy_static_run cfg fs t).1 := by
  unfold copy_static_run
  cases hthm : fsGet fs themeStaticRoot with
  | none => exact fresh_refl t fs
  | some e =>
    cases e with
    | file m b => exact fresh_refl t fs
    | dir k => exact mirror_entries_fresh cfg.output t _ (fs, 0)

theorem copy_static_run_extends {hd : String} (cfg : Config) (fs : FS)
    (t : Nat) (h : cfg.output.head? = some hd) :
    ExtendsWith hd fs (copy_static_run cfg fs t).1 := by
  unfold copy_static_run
  cases hthm : fsGet fs themeStaticRoot with
  | none => exact extendsWith_refl hd fs
  | some e =>
    cases e with
    | file m b => exact extendsWith_refl hd fs
    | dir k => exact mirror_entries_extends t h _ (fs, 0)

theorem copy_static_run_post (cfg : Config) (fs : FS) (t k : Nat)
    (hthm : fsGet fs themeStaticRoot = some (Entry.dir k))
    (hmtE : ∀ pe ∈ walkAll fs themeStaticRoot, (pe : Path × Entry).2.mtime ≤ t) :
    ∀ pe ∈ walkAll fs themeStaticRoot,
      ∃ d, fsGet (copy_static_run cfg fs t).1 (mirror_dst cfg.output pe.1) =
          some d ∧ (pe.2.isFile = true → pe.2.mtime ≤ d.mtime) := by
  intro pe hpe
  unfold copy_static_run
  rw [hthm]
  exact mirror_entries_post cfg.output t _ (fs, 0) hmtE pe hpe

/-- **C6** — Idempotence: running the build's transcode-and-mirror stages
once at time `t` and then scanning again finds no stale conversion task and
the mirror performs zero copies, provided nothing else touched the
filesystem: all modification times are in the past (`≤ t`), every source
decodes, the input root is a directory, and the input root, output root and
`_theme` are three distinct top-level trees. -/
theorem second_build_is_noop {Img : Type} (c : Codec Img) (cfg : Config)
    (fs : FS) (t t2 : Nat)
    (hnodup : (fs.map Prod.fst).Nodup)
    (hmt : ∀ pe ∈ fs, (pe : Path × Entry).2.mtime ≤ t)
    (hdec : ∀ b, (c.decode b).isSome = true)
    (hin : cfg.input ≠ []) (hout : cfg.output ≠ [])
    (hio : cfg.input.head? ≠ cfg.output.head?)
    (hth : cfg.output.head? ≠ some "_theme")
    (hinroot : ∀ e : Entry, (cfg.input, e) ∈ fs → e.isFile = false) :
    scanTasks cfg
      (copy_static_run cfg (process_images_run c cfg fs t).1 t).1 = [] ∧
    (copy_static_run cfg
      (process_images_run c cfg
        (copy_static_run cfg (process_images_run c cfg fs t).1 t).1 t2).1
      t2).2 = 0 := by
  obtain ⟨o, os, houtc⟩ : ∃ o os, cfg.output = o :: os := by
    cases hc : cfg.output with
    | nil => exact absurd hc hout
    | cons o os => exact ⟨o, os, rfl⟩
  have hohead : cfg.output.head? = some o := by rw [houtc]; rfl
  have hinhead : cfg.input.head? ≠ some o := fun h => hio (h.trans hohead.symm)
  have hto : themeStaticRoot.head? ≠ some o := by
    intro hcontra
    exact hth (hohead.trans (by exact hcontra.symm))
  have hthne : themeStaticRoot ≠ [] := by simp [themeStaticRoot]
  have hshape := scanTasks_shape houtc hnodup hin hio hinroot
  obtain ⟨fsA, hfsA⟩ : ∃ x, (process_images_run c cfg fs t).1 = x := ⟨_, rfl⟩
  have hextA : ExtendsWith o fs fsA := by
    rw [← hfsA]
    exact run_tasks_extends c cfg t _ fs
      (fun tsk h => ⟨(hshape tsk h).1, (hshape tsk h).2.1⟩)
  have hfreshA : Fresh t fs fsA := by
    rw [← hfsA]
    exact run_tasks_fresh c cfg t _ fs
  have hdests : ∀ tsk ∈ scanTasks cfg fs,
      ∃ e, fsGet fsA tsk.dst = some e ∧ e.mtime = t := by
    rw [← hfsA]
    exact run_tasks_dests c cfg t hdec _ fs hshape
  have hthemeA : fsGet fsA themeStaticRoot = fsGet fs themeStaticRoot :=
    fsGet_of_extendsWith hextA hto
  obtain ⟨fsB, hfsB⟩ : ∃ x, (copy_static_run cfg fsA t).1 = x := ⟨_, rfl⟩
  have hextAB : ExtendsWith o fsA fsB := by
    rw [← hfsB]
    exact copy_static_run_extends cfg fsA t hohead
  have hfreshAB : Fresh t fsA fsB := by
    rw [← hfsB]
    exact copy_static_run_fresh cfg fsA t
  have hextB : ExtendsWith o fs fsB := extendsWith_trans hextA hextAB
  have hfreshB : Fresh t fs fsB := fresh_trans hfreshA hfreshAB
  have hthemeB : fsGet fsB themeStaticRoot = fsGet fs themeStaticRoot :=
    (fsGet_of_extendsWith hextAB hto).trans hthemeA
  have hwalkB : walkFiles fsB cfg.input = walkFiles fs cfg.input :=
    walkFiles_extendsWith hextB hinhead hin
  have hpostB : ∀ k, fsGet fs themeStaticRoot = some (Entry.dir k) →
      ∀ pe ∈ walkAll fs themeStaticRoot,
        ∃ d, fsGet fsB (mirror_dst cfg.output pe.1) = some d ∧
          ((pe : Path × Entry).2.isFile = true → pe.2.mtime ≤ d.mtime) := by
    intro k hthm pe hpe
    have hthmA : fsGet fsA themeStaticRoot = some (Entry.dir k) := by
      rw [hthemeA, hthm]
    have hwalkA : walkAll fsA themeStaticRoot = walkAll fs themeStaticRoot :=
      walkAll_extendsWith hextA hto hthne
    have hmtA : ∀ pe2 ∈ walkAll fsA themeStaticRoot,
        (pe2 : Path × Entry).2.mtime ≤ t := by
      rw [hwalkA]
      intro pe2 hpe2
      exact hmt pe2 (List.mem_filter.mp hpe2).1
    have hres := copy_static_run_post cfg fsA t k hthmA hmtA pe
      (by rw [hwalkA]; exact hpe)
    rw [hfsB] at hres
    exact hres
  -- the second scan finds nothing stale
  have hscanB : scanTasks cfg fsB = [] := by
    unfold scanTasks
    rw [hwalkB]
    apply List.filterMap_eq_nil_iff.mpr
    intro p hp
    obtain ⟨hpw, hmatch⟩ := List.mem_filter.mp hp
    obtain ⟨e, hmem, hfile, hunder⟩ := walkFiles_mem hpw
    obtain ⟨m, b, rfl⟩ : ∃ m b, e = Entry.file m b := by
      cases e with
      | file m b => exact ⟨m, b, rfl⟩
      | dir k => cases hfile
    have hget : fsGet fs p = some (Entry.file m b) := fsGet_of_mem hnodup hmem
    have hphead : p.head? = cfg.input.head? :=
      head_eq_of_isUnder cfg.input p hin hunder
    obtain ⟨a, rest, rfl⟩ : ∃ a rest, p = a :: rest := by
      cases hpc : p with
      | nil => exact absurd hpc (ne_nil_of_isUnder hin hunder)
      | cons a rest => exact ⟨a, rest, rfl⟩
    have hgetB : fsGet fsB (a :: rest) = some (Entry.file m b) := by
      rw [fsGet_of_extendsWith hextB (by rw [hphead]; exact hinhead)]
      exact hget
    have hmle : m ≤ t := by
      have := hmt _ hmem
      simpa [Entry.mtime] using this
    have hdstfresh : ∃ d, fsGet fsB (cfg.output ++ rest) = some d ∧
        ¬ m > d.mtime := by
      rcases @into_conversion_total cfg.output fs a rest _ hget with hic | hic
      · have htsmem := mem_scanTasks_of hpw hmatch hic
        obtain ⟨e1, he1, he1t⟩ := hdests _ htsmem
        rcases hfreshAB (cfg.output ++ rest) with hsame | ⟨e2, he2, he2t⟩
        · exact ⟨e1, hsame.trans he1, by omega⟩
        · exact ⟨e2, he2, by omega⟩
      · obtain ⟨d0, hd0, hnot⟩ := into_conversion_ok_none_dst hget hic
        rcases hfreshB (cfg.output ++ rest) with hsame | ⟨e2, he2, he2t⟩
        · refine ⟨d0, hsame.trans hd0, ?_⟩
          simpa [Entry.mtime] using hnot
        · exact ⟨e2, he2, by omega⟩
    obtain ⟨d, hd, hnot⟩ := hdstfresh
    have hicB : into_conversion cfg.output fsB (a :: rest) = Except.ok none := by
      simp only [into_conversion]
      rw [hd]
      dsimp only
      rw [hgetB]
      dsimp only
      cases d with
      | file md bd =>
        simp only [Entry.mtime] at hnot
        simp only [Entry.mtime]
        rw [if_neg hnot]
      | dir md =>
        simp only [Entry.mtime] at hnot
        simp only [Entry.mtime]
        rw [if_neg hnot]
    rw [hicB]
  refine ⟨hfsA ▸ hfsB ▸ hscanB, ?_⟩
  rw [hfsA, hfsB]
  have hrunB : (process_images_run c cfg fsB t2).1 = fsB := by
    show (run_tasks c cfg t2 (scanTasks cfg fsB) fsB).1 = fsB
    rw [hscanB]
    rfl
  rw [hrunB]
  unfold copy_static_run
  rw [hthemeB]
  cases hthm : fsGet fs themeStaticRoot with
  | none => rfl
  | some e =>
    cases e with
    | file m b => rfl
    | dir k =>
      dsimp only
      have hwalkBth : walkAll fsB themeStaticRoot = walkAll fs themeStaticRoot :=
        walkAll_extendsWith hextB hto hthne
      rw [hwalkBth]
      have hcond : ∀ pe ∈ walkAll fs themeStaticRoot,
          (∀ k2, (pe : Path × Entry).2 = Entry.dir k2 →
            ¬ fsGet fsB (mirror_dst cfg.output pe.1) = none) ∧
          (∀ m2 bytes2, pe.2 = Entry.file m2 bytes2 →
            mirror_should_copy fsB (mirror_dst cfg.output pe.1) m2 = false) := by
        intro pe hpe
        obtain ⟨d, hdg, hdm⟩ := hpostB k hthm pe hpe
        constructor
        · intro k2 _ hcontra
          rw [hcontra] at hdg
          cases hdg
        · intro m2 bytes2 hpe2
          have hm2 : m2 ≤ d.mtime := by
            have := hdm (by rw [hpe2]; rfl)
            rw [hpe2] at this
            simpa [Entry.mtime] using this
          unfold mirror_should_copy
          rw [hdg]
          simp only [decide_eq_false_iff_not]
          omega
      rw [mirror_entries_noop cfg.output t2 _ fsB hcond 0]

/-- A concrete total codec over `Img := Nat` for witnesses: `decode` sums
the bytes, `resample` adds the box dimensions, `encode` wraps in a
singleton list. -/
def natCodec : Codec Nat :=
  Codec.mk (fun b => some (b.foldl (· + ·) 0)) (fun i w h => i + w + h)
    (fun i => [i])

/-- A concrete configuration for witnesses. -/
def witnessConfig : Config :=
  { input := ["in"], output := ["out"], thumbnail := ⟨450, 300⟩, resize := none }

/-- A concrete filesystem for witnesses: the input root directory holding
one image. -/
def witnessFS : FS :=
  [(["in"], Entry.dir 0), (["in", "a.jpg"], Entry.file 3 [7])]

/-- Witness for `second_build_is_noop` at a concrete one-image filesystem. -/
theorem second_build_is_noop_witness :
    scanTasks witnessConfig
      (copy_static_run witnessConfig
        (process_images_run natCodec witnessConfig witnessFS 9).1 9).1 = [] ∧
    (copy_static_run witnessConfig
      (process_images_run natCodec witnessConfig
        (copy_static_run witnessConfig
          (process_images_run natCodec witnessConfig witnessFS 9).1 9).1
        11).1 11).2 = 0 :=
  second_build_is_noop natCodec witnessConfig witnessFS 9 11
    (by decide) (by decide) (fun b => rfl) (by decide) (by decide) (by decide)
    (by decide)
    (by
      intro e he
      rcases List.mem_cons.mp he with h | h
      · have h2 := congrArg Prod.snd h
        simp only at h2
        rw [h2]
        rfl
      · rcases List.mem_cons.mp h with h2 | h2
        · have h3 := congrArg Prod.fst h2
          simp [witnessConfig] at h3
        · cases h2)

/-! ## Album assembly

`Builder::write_template` (src/main.rs:226-274) and
`Builder::write_templates` (src/main.rs:276-291).  The output tree walked
by `WalkDir` is modelled as a rose tree of named files and directories. -/

/-- A directory tree: the shape `write_templates` walks. -/
inductive Tree where
  | file (name : String)
  | dir (name : String) (children : List Tree)

/-- `Image` (src/main.rs:55-59): one image entry of the rendering context. -/
structure Image where
  image : String
  thumbnail : String
deriving DecidableEq

/-- `Album` (src/main.rs:61-67): the album section of the rendering
context. -/
structure Album where
  title : String
  thumbnail : Option String
  images : List Image
  albums : List String
deriving DecidableEq

/-- The context handed to the renderer by `write_template`
(src/main.rs:260-269): the album plus the theme's relative static-root url
(`Theme`, src/main.rs:69-72), kept as path components. -/
structure Context where
  album : Album
  themeUrl : Path
deriving DecidableEq

/-- The sub-album list of `write_template` (src/main.rs:233-237): child
directories whose name is not `thumbnails` (note that `static` is *not*
excluded here), each formatted with a trailing separator. -/
def albumsOf (children : List Tree) : List String :=
  children.filterMap fun c =>
    match c with
    | Tree.dir n _ => if n = "thumbnails" then none else some (n ++ "/")
    | Tree.file _ => none

/-- The image list of `write_template` (src/main.rs:239-246): child files
matching the extension filter, with thumbnail path `thumbnails/<name>`. -/
def imagesOf (children : List Tree) : List Image :=
  children.filterMap fun c =>
    match c with
    | Tree.file n =>
      if fileMatches n then some { image := n, thumbnail := "thumbnails/" ++ n }
      else none
    | Tree.dir _ _ => none

/-- The theme url computed by `write_template` (src/main.rs:248-258): one
`..` per component of `entry.path().iter().count() - 1`, then `static`. -/
def static_path (entryPath : Path) : Path :=
  List.replicate (entryPath.length - 1) ".." ++ ["static"]

/-- `Builder::write_template` (src/main.rs:226-274): the context rendered
for the directory at `entryPath` named `name` with direct children
`children`; the representative thumbnail is the first image's thumbnail. -/
def write_template (entryPath : Path) (name : String)
    (children : List Tree) : Context :=
  { album :=
      { title := name
        thumbnail := (imagesOf children).head?.map Image.thumbnail
        images := imagesOf children
        albums := albumsOf children }
    themeUrl := static_path entryPath }

mutual
/-- `Builder::write_templates` (src/main.rs:276-291): the `WalkDir` over
the output tree with `filter_entry(|e| !must_skip(e))` — files are never
visited, and a directory named `thumbnails` or `static` is pruned together
with its whole subtree (the walk root included).  Returns, in visit order,
each visited directory's path (where its `index.html` is written) and the
context rendered for it.  `pref` is the path of the walked node's parent:
for an output root `out`, the walk starts with `walkTree root out.dropLast`
on the tree named `out.getLast`. -/
def walkTree : Tree → Path → List (Path × Context)
  | Tree.file _, _ => []
  | Tree.dir n cs, pref =>
    if n = "thumbnails" ∨ n = "static" then []
    else
      (pref ++ [n], write_template (pref ++ [n]) n cs) ::
        walkForest cs (pref ++ [n])

/-- The walk continued over a directory's children. -/
def walkForest : List Tree → Path → List (Path × Context)
  | [], _ => []
  | c :: rest, pref => walkTree c pref ++ walkForest rest pref
end

/-- Nested induction principle for `Tree`. -/
theorem tree_rec_on {motive : Tree → Prop}
    (hfile : ∀ n, motive (Tree.file n))
    (hdir : ∀ n cs, (∀ c ∈ cs, motive c) → motive (Tree.dir n cs)) :
    ∀ t, motive t :=
  fun t =>
    @Tree.rec motive (fun l => ∀ c ∈ l, motive c)
      hfile hdir
      (fun c hc => absurd hc (List.not_mem_nil c))
      (fun hd tl ihhd ihtl c hc => by
        rcases List.mem_cons.mp hc with h | h
        · exact h ▸ ihhd
        · exact ihtl c h)
      t

theorem walkForest_mem {cs : List Tree} {pref : Path} {pc : Path × Context}
    (h : pc ∈ walkForest cs pref) : ∃ c ∈ cs, pc ∈ walkTree c pref := by
  induction cs with
  | nil => cases h
  | cons c rest ih =>
    simp only [walkForest] at h
    rcases List.mem_append.mp h with h | h
    · exact ⟨c, List.mem_cons_self _ _, h⟩
    · obtain ⟨c2, hc2, hpc⟩ := ih h
      exact ⟨c2, List.mem_cons_of_mem _ hc2, hpc⟩

theorem string_append_sep_inj {a b : String} (h : a ++ "/" = b ++ "/") :
    a = b := by
  have hdata := congrArg String.data h
  simp only [String.data_append] at hdata
  exact String.ext (List.append_cancel_right hdata)

theorem lastName_concat (l : Path) (x : String) : lastName (l ++ [x]) = x := by
  unfold lastName
  rw [List.getLast?_concat]
  rfl

/-- Soundness of the template walk: every rendered page sits at a
non-reserved directory; its albums list never contains `thumbnails/`; its
images all pass the extension filter; and its theme url is one `..` per
path component beyond the first, then `static`. -/
theorem walkTree_sound (t : Tree) : ∀ (pref : Path), ∀ pc ∈ walkTree t pref,
    lastName pc.1 ≠ "thumbnails" ∧ lastName pc.1 ≠ "static" ∧
    "thumbnails/" ∉ pc.2.album.albums ∧
    (∀ img ∈ pc.2.album.images, fileMatches img.image = true) ∧
    pc.2.themeUrl = List.replicate (pc.1.length - 1) ".." ++ ["static"] := by
  induction t using tree_rec_on with
  | hfile n =>
    intro pref pc hpc
    cases hpc
  | hdir n cs ih =>
    intro pref pc hpc
    simp only [walkTree] at hpc
    by_cases hres : n = "thumbnails" ∨ n = "static"
    · rw [if_pos hres] at hpc
      cases hpc
    · rw [if_neg hres] at hpc
      rcases List.mem_cons.mp hpc with h | h
      · have hnth : n ≠ "thumbnails" := fun hc => hres (Or.inl hc)
        have hnst : n ≠ "static" := fun hc => hres (Or.inr hc)
        subst h
        refine ⟨?_, ?_, ?_, ?_, ?_⟩
        · rw [lastName_concat]
          exact hnth
        · rw [lastName_concat]
          exact hnst
        · intro hmem
          unfold write_template at hmem
          simp only at hmem
          unfold albumsOf at hmem
          rcases List.mem_filterMap.mp hmem with ⟨c, _, hc⟩
          cases c with
          | file n2 => cases hc
          | dir n2 cs2 =>
            dsimp only at hc
            by_cases hth : n2 = "thumbnails"
            · rw [if_pos hth] at hc
              cases hc
            · rw [if_neg hth] at hc
              have : n2 ++ "/" = "thumbnails/" := Option.some.inj hc
              exact hth (string_append_sep_inj
                (this.trans (show "thumbnails/" = "thumbnails" ++ "/" from rfl)))
        · intro img hmem
          unfold write_template at hmem
          simp only at hmem
          unfold imagesOf at hmem
          rcases List.mem_filterMap.mp hmem with ⟨c, _, hc⟩
          cases c with
          | dir n2 cs2 => cases hc
          | file n2 =>
            dsimp only at hc
            by_cases hfm : fileMatches n2 = true
            · rw [if_pos hfm] at hc
              cases Option.some.inj hc
              exact hfm
            · rw [if_neg hfm] at hc
              cases hc
        · rfl
      · obtain ⟨c, hc, hpc2⟩ := walkForest_mem h
        exact ih c hc (pref ++ [n]) pc hpc2

/-- **C1 (amended)** — No directory named `thumbnails` or `static` under
the output root ever receives an `index.html` page (the template walk
prunes both names together with their subtrees), and `thumbnails` never
appears in any album's albums list.  A child directory named `static`,
however, *does* appear as `static/` in its parent's albums list (see the
counterexample): the albums filter of `write_template` (src/main.rs:235)
only excludes `thumbnails`. -/
theorem reserved_dirs_unindexed_thumbnails_unlisted (t : Tree) (pref : Path) :
    ∀ pc ∈ walkTree t pref,
      lastName pc.1 ≠ "thumbnails" ∧ lastName pc.1 ≠ "static" ∧
      "thumbnails/" ∉ pc.2.album.albums := by
  intro pc hpc
  obtain ⟨h1, h2, h3, _, _⟩ := walkTree_sound t pref pc hpc
  exact ⟨h1, h2, h3⟩

/-- Witness for `reserved_dirs_unindexed_thumbnails_unlisted` at a concrete
output tree with a `static` child and a real album child. -/
theorem reserved_dirs_unindexed_thumbnails_unlisted_witness :
    lastName (["out"] : Path) ≠ "thumbnails" ∧
    lastName (["out"] : Path) ≠ "static" ∧
    "thumbnails/" ∉ (write_template ([] ++ ["out"]) "out"
      [Tree.dir "static" [], Tree.dir "a" []]).album.albums :=
  reserved_dirs_unindexed_thumbnails_unlisted
    (Tree.dir "out" [Tree.dir "static" [], Tree.dir "a" []]) []
    ([] ++ ["out"], write_template ([] ++ ["out"]) "out"
      [Tree.dir "static" [], Tree.dir "a" []])
    (List.mem_cons_self _ _)

/-- Counterexample to **C1** as stated: when the output root has a child
directory named `static` (which theme mirroring always creates), the
root's rendered page lists `static/` in its albums. -/
theorem static_listed_as_album :
    ((walkTree (Tree.dir "out" [Tree.dir "static" [], Tree.dir "a" []]) []).map
        (fun pc => pc.2.album.albums)) = [["static/", "a/"], []] ∧
    "static/" ∈ (write_template ["out"] "out"
      [Tree.dir "static" [], Tree.dir "a" []]).album.albums := by
  constructor
  · rfl
  · decide

/-- **C3 (amended)** — For every rendered directory, the theme's relative
static path written into the context consists of one parent reference per
component of the directory's *full* path beyond the first, followed by
`static`.  This equals the directory's depth below the output root exactly
when the configured output root is a single path component (then a page at
path `p` has depth `p.length - 1` below the root); a multi-component
output root produces extra `..` segments (see the counterexample). -/
theorem theme_url_shape (t : Tree) (pref : Path) :
    ∀ pc ∈ walkTree t pref,
      pc.2.themeUrl = List.replicate (pc.1.length - 1) ".." ++ ["static"] := by
  intro pc hpc
  exact (walkTree_sound t pref pc hpc).2.2.2.2

/-- Witness for `theme_url_shape`: a single-component output root `out`
with an album `a` at depth 1 yields `../static`. -/
theorem theme_url_shape_witness :
    (write_template (["out"] ++ ["a"]) "a" []).themeUrl =
      List.replicate ((["out"] ++ ["a"] : Path).length - 1) ".." ++ ["static"] :=
  theme_url_shape (Tree.dir "out" [Tree.dir "a" []]) []
    (["out"] ++ ["a"], write_template (["out"] ++ ["a"]) "a" []) (by decide)

/-- Counterexample to **C3** as stated: with the two-component output root
`a/b`, the root album directory itself — at depth 0 below the output root,
so the claim demands `static` — receives theme url `../static`: the code
counts `entry.path().iter().count() - 1` parent references, not the depth
below the output root. -/
theorem static_path_counterexample :
    (walkTree (Tree.dir "b" []) ["a"]).map (fun pc => pc.2.themeUrl) =
      [["..", "static"]] ∧
    (["..", "static"] : Path) ≠ (["static"] : Path) := by
  constructor
  · rfl
  · decide

/-- **C8** — The accepted extension set is hard-coded to exactly the
single case-sensitive extension `jpg`, and the same filter is applied when
scanning for conversion tasks and when listing an album's images: a file
whose extension is `JPG`, `jpeg`, or anything other than exactly `jpg`
passes neither filter — it yields no conversion task and never appears as
an image entry in any album. -/
theorem extension_filter_is_jpg :
    (∀ nm, fileMatches nm = true ↔ extension nm = some "jpg") ∧
    fileMatches "photo.jpg" = true ∧
    fileMatches "photo.JPG" = false ∧
    fileMatches "photo.jpeg" = false ∧
    (∀ (cfg : Config) (fs : FS) (conv : Conversion), conv ∈ scanTasks cfg fs →
      fileMatches (lastName conv.src) = true) ∧
    (∀ (t : Tree) (pref : Path), ∀ pc ∈ walkTree t pref,
      ∀ img ∈ pc.2.album.images, fileMatches img.image = true) := by
  refine ⟨fileMatches_iff, by decide, by decide, by decide, ?_, ?_⟩
  · intro cfg fs conv hconv
    obtain ⟨e, _, _, _, hmatch, _⟩ := scanTasks_mem hconv
    exact hmatch
  · intro t pref pc hpc
    exact (walkTree_sound t pref pc hpc).2.2.2.1

/-- Witness for `extension_filter_is_jpg`: the scanner emits a task for a
concrete `a.jpg`, whose name passes the filter; and a rendered album image
entry passes the filter. -/
theorem extension_filter_is_jpg_witness :
    fileMatches (lastName
      ({ src := ["in", "a.jpg"], dst := ["out", "a.jpg"] } : Conversion).src) =
      true ∧
    fileMatches ({ image := "a.jpg", thumbnail := "thumbnails/a.jpg" }
      : Image).image = true := by
  constructor
  · exact extension_filter_is_jpg.2.2.2.2.1 witnessConfig witnessFS
      { src := ["in", "a.jpg"], dst := ["out", "a.jpg"] } (by decide)
  · exact extension_filter_is_jpg.2.2.2.2.2 (Tree.dir "out" [Tree.file "a.jpg"])
      [] ([] ++ ["out"], write_template ([] ++ ["out"]) "out"
        [Tree.file "a.jpg"]) (by decide)
      { image := "a.jpg", thumbnail := "thumbnails/a.jpg" } (by decide)

/-! ## The build pipeline and the album-assembly failure mode -/

/-- `Builder::write_templates` (src/main.rs:276-291) as a stage result.
`WalkDir::new(output)` over a missing root yields a single `Err` entry and
`let entry = entry?` propagates it, aborting the stage; over an existing
root, every visited directory's page is rendered. -/
def write_templates_run (output : Path) :
    Option Tree → Except String (List (Path × Context))
  | none => Except.error "IO error: cannot walk the output root"
  | some t => Except.ok (walkTree t output.dropLast)

/-- `build` (src/main.rs:311-317): `process_images` then `copy_static_data`
then `write_templates`, each result propagated with `?`/tail position.  The
modelled first two stages cannot fail (per-entry walk errors are skipped,
theme I/O errors are not modelled), so the build's result is the template
stage's.  `treeAt fs p` is the directory tree of `fs` rooted at `p`, `none`
when `p` is not a directory there. -/
def build_run {Img : Type} (c : Codec Img) (cfg : Config) (fs : FS) (t : Nat)
    (treeAt : FS → Path → Option Tree) :
    Except String (List (Path × Context)) :=
  match (process_images_run c cfg fs t).2.2 with
  | Except.error e => Except.error e
  | Except.ok _ =>
    write_templates_run cfg.output
      (treeAt (copy_static_run cfg (process_images_run c cfg fs t).1 t).1
        cfg.output)

/-- **C9** — If the output root directory does not exist when the
album-assembly stage runs — e.g. a build over an input tree containing no
matching images, with no theme assets and no prior build — the assembly
stage returns an error (its `WalkDir` yields a single `Err` entry, which
`entry?` propagates out of the loop) and the whole build fails, rather
than completing as a no-op. -/
theorem missing_output_root_fails {Img : Type} (c : Codec Img) (cfg : Config)
    (fs : FS) (t : Nat) (treeAt : FS → Path → Option Tree)
    (htree : ∀ fs2 : FS, fsGet fs2 cfg.output = none →
      treeAt fs2 cfg.output = none)
    (hscan : scanTasks cfg fs = [])
    (hnotheme : ∀ k, fsGet fs themeStaticRoot ≠ some (Entry.dir k))
    (hmiss : fsGet fs cfg.output = none) :
    (∃ e, build_run c cfg fs t treeAt = Except.error e) ∧
    ∀ outTree : Option Tree, outTree = none →
      ∃ e, write_templates_run cfg.output outTree = Except.error e := by
  have hfs1 : (process_images_run c cfg fs t).1 = fs := by
    show (run_tasks c cfg t (scanTasks cfg fs) fs).1 = fs
    rw [hscan]
    rfl
  have hfs2 : (copy_static_run cfg fs t).1 = fs := by
    unfold copy_static_run
    cases hthm : fsGet fs themeStaticRoot with
    | none => rfl
    | some e =>
      cases e with
      | file m b => rfl
      | dir k => exact absurd hthm (hnotheme k)
  constructor
  · unfold build_run
    rw [show (process_images_run c cfg fs t).2.2 = Except.ok () from rfl]
    rw [hfs1, hfs2, htree fs hmiss]
    exact ⟨_, rfl⟩
  · intro outTree hout
    subst hout
    exact ⟨_, rfl⟩

/-- Witness for `missing_output_root_fails`: an empty filesystem — no
output root, no theme, no images. -/
theorem missing_output_root_fails_witness :
    (∃ e, build_run natCodec witnessConfig [] 5 (fun _ _ => none) =
      Except.error e) ∧
    ∀ outTree : Option Tree, outTree = none →
      ∃ e, write_templates_run witnessConfig.output outTree =
        Except.error e :=
  missing_output_root_fails natCodec witnessConfig [] 5 (fun _ _ => none)
    (fun _ _ => rfl) rfl (fun _ h => Option.noConfusion h) rfl

end Rigal
